import Mathlib

/-!
Verification of the NSMWE static disassembly core (smwe_rom).

This file gives a shallow embedding, in Lean 4, of the address model, the
chunk store, the worklist walker and the data-block registration API of the
`smwe_rom` crate (`src/smwe_rom/src/disassembler/mod.rs` and
`src/smwe_rom/src/snes_utils/addr.rs`), and proves or refutes the frozen
specification claims about them.

Machine integers (`usize`) are embedded as `Nat`; the source's bit masks and
shifts are kept literally (`&&&`, `|||`, `<<<`, `>>>`).  Collaborator modules
that are not part of the provided sources (instruction decoder, processor
register file, jump-table registry, ROM slicing) are modelled from the
specification; each such definition is marked `Modelled from the spec:`.
-/

/-! ## Bitwise helper lemmas -/

/-- Splitting a bitwise AND at bit position `k`: low and high parts combine
independently. -/
theorem nat_and_decompose (k q m q' m' : Nat) (hm : m < 2 ^ k) (hm' : m' < 2 ^ k) :
    (2 ^ k * q + m) &&& (2 ^ k * q' + m') = 2 ^ k * (q &&& q') + (m &&& m') := by
  rw [Nat.mul_add_lt_is_or hm, Nat.mul_add_lt_is_or hm',
    Nat.mul_add_lt_is_or (Nat.and_lt_two_pow _ hm')]
  apply Nat.eq_of_testBit_eq
  intro i
  rcases Nat.lt_or_ge i k with h | h
  · have d1 : Nat.testBit (2 ^ k * q) i = false := by
      rw [Nat.mul_comm, ← Nat.shiftLeft_eq, Nat.testBit_shiftLeft]
      simp [Nat.not_le_of_lt h]
    have d2 : Nat.testBit (2 ^ k * q') i = false := by
      rw [Nat.mul_comm, ← Nat.shiftLeft_eq, Nat.testBit_shiftLeft]
      simp [Nat.not_le_of_lt h]
    have d3 : Nat.testBit (2 ^ k * (q &&& q')) i = false := by
      rw [Nat.mul_comm, ← Nat.shiftLeft_eq, Nat.testBit_shiftLeft]
      simp [Nat.not_le_of_lt h]
    simp [Nat.testBit_and, Nat.testBit_or, d1, d2, d3]
  · have e1 : Nat.testBit m i = false :=
      Nat.testBit_lt_two_pow (Nat.lt_of_lt_of_le hm (Nat.pow_le_pow_right (by omega) h))
    have e2 : Nat.testBit m' i = false :=
      Nat.testBit_lt_two_pow (Nat.lt_of_lt_of_le hm' (Nat.pow_le_pow_right (by omega) h))
    have e3 : Nat.testBit (m &&& m') i = false := by
      simp [Nat.testBit_and, e1]
    have g1 : Nat.testBit (2 ^ k * q) i = Nat.testBit q (i - k) := by
      rw [Nat.mul_comm, ← Nat.shiftLeft_eq, Nat.testBit_shiftLeft]
      simp [h]
    have g2 : Nat.testBit (2 ^ k * q') i = Nat.testBit q' (i - k) := by
      rw [Nat.mul_comm, ← Nat.shiftLeft_eq, Nat.testBit_shiftLeft]
      simp [h]
    have g3 : Nat.testBit (2 ^ k * (q &&& q')) i = Nat.testBit (q &&& q') (i - k) := by
      rw [Nat.mul_comm, ← Nat.shiftLeft_eq, Nat.testBit_shiftLeft]
      simp [h]
    simp [Nat.testBit_and, Nat.testBit_or, e1, e2, e3, g1, g2, g3]

/-- Splitting any bitwise AND at bit 16. -/
theorem nat_and_split_16 (a b : Nat) :
    a &&& b = 2 ^ 16 * (a / 2 ^ 16 &&& b / 2 ^ 16) + (a % 2 ^ 16 &&& b % 2 ^ 16) := by
  have ha := Nat.div_add_mod a (2 ^ 16)
  have hb := Nat.div_add_mod b (2 ^ 16)
  calc a &&& b
      = (2 ^ 16 * (a / 2 ^ 16) + a % 2 ^ 16) &&& (2 ^ 16 * (b / 2 ^ 16) + b % 2 ^ 16) := by
        rw [ha, hb]
    _ = 2 ^ 16 * (a / 2 ^ 16 &&& b / 2 ^ 16) + (a % 2 ^ 16 &&& b % 2 ^ 16) :=
        nat_and_decompose 16 _ _ _ _ (Nat.mod_lt _ (by norm_num)) (Nat.mod_lt _ (by norm_num))

/-- Disjoint OR recombines to addition (wrapper around `Nat.mul_add_lt_is_or`). -/
theorem nat_or_eq_add (k q m : Nat) (hm : m < 2 ^ k) : 2 ^ k * q ||| m = 2 ^ k * q + m :=
  (Nat.mul_add_lt_is_or hm q).symm

theorem nat_and_mask_7FFF (a : Nat) : a &&& 0x7FFF = a % 0x8000 := by
  have h : (0x7FFF : Nat) = 2 ^ 15 - 1 := by norm_num
  rw [h, Nat.and_pow_two_sub_one_eq_mod]

/-! ## Address model (`snes_utils/addr.rs`)

`AddrPc` (linear file offset) and `AddrSnes` (logical 65816 address) are both
`usize` newtypes in the source; we embed both as `Nat`.  The conversions and
validity predicates below mirror the source bit for bit. -/

/-- Address conversion errors (`error.rs`, `AddressError`). -/
inductive AddressError where
  | invalidPcLoRom (addr : Nat)
  | invalidPcHiRom (addr : Nat)
  | invalidSnesLoRom (addr : Nat)
  | invalidSnesHiRom (addr : Nat)
  deriving DecidableEq, Repr

instance exceptDecEq {e a : Type} [DecidableEq e] [DecidableEq a] : DecidableEq (Except e a) := fun x y =>
  match x, y with
  | .ok u, .ok v => if h : u = v then .isTrue (by rw [h]) else .isFalse (by intro hc; cases hc; exact h rfl)
  | .error u, .error v => if h : u = v then .isTrue (by rw [h]) else .isFalse (by intro hc; cases hc; exact h rfl)
  | .ok _, .error _ => .isFalse (by intro hc; cases hc)
  | .error _, .ok _ => .isFalse (by intro hc; cases hc)

/-- `AddrPc::is_valid_lorom`. -/
def addrPcIsValidLorom (addr : Nat) : Bool :=
  addr < 0x400000

/-- `AddrSnes::is_valid_lorom`. -/
def addrSnesIsValidLorom (addr : Nat) : Bool :=
  let wram := (addr &&& 0xFE0000) == 0x7E0000
  let junk := (addr &&& 0x408000) == 0x000000
  let sram := (addr &&& 0x708000) == 0x700000
  !wram && !junk && !sram

/-- `AddrPc::try_from_lorom` — logical (SNES) to linear (PC) conversion. -/
def addrPcTryFromLorom (addr : Nat) : Except AddressError Nat :=
  if addrSnesIsValidLorom addr then
    .ok (((addr &&& 0x7F0000) >>> 1) ||| (addr &&& 0x7FFF))
  else
    .error (.invalidSnesLoRom addr)

/-- `AddrSnes::try_from_lorom` — linear (PC) to logical (SNES) conversion. -/
def addrSnesTryFromLorom (addr : Nat) : Except AddressError Nat :=
  if addrPcIsValidLorom addr then
    .ok (((addr <<< 1) &&& 0x7F0000) ||| (addr &&& 0x7FFF) ||| 0x8000)
  else
    .error (.invalidPcLoRom addr)

/-- `AddrSnes::MIN` (`0x8000`), the reset vector's load address. -/
def addrSnesMin : Nat := 0x8000

/-- Arithmetic characterization of the PC-to-SNES conversion on its domain. -/
theorem addrSnesTryFromLorom_eq (p : Nat) (hp : p < 0x400000) :
    addrSnesTryFromLorom p = .ok (0x10000 * (p / 0x8000) + 0x8000 + p % 0x8000) := by
  have hvalid : addrPcIsValidLorom p = true := by
    simp [addrPcIsValidLorom, hp]
  have hshift : p <<< 1 = 2 * p := by
    rw [Nat.shiftLeft_eq]
    ring
  have hdiv : 2 * p / 2 ^ 16 = p / 2 ^ 15 := by
    have : (2 : Nat) ^ 16 = 2 * 2 ^ 15 := by norm_num
    rw [this, Nat.mul_div_mul_left _ _ (by norm_num)]
  have hb : p / 2 ^ 15 < 0x80 := by
    have : p / 2 ^ 15 < 0x400000 / 2 ^ 15 + 1 := by
      have : p / 2 ^ 15 ≤ 0x400000 / 2 ^ 15 := Nat.div_le_div_right (Nat.le_of_lt hp)
      omega
    norm_num at this
    omega
  have hand : (2 * p) &&& 0x7F0000 = 0x10000 * (p / 0x8000) := by
    rw [nat_and_split_16]
    have h1 : (0x7F0000 : Nat) / 2 ^ 16 = 0x7F := by norm_num
    have h2 : (0x7F0000 : Nat) % 2 ^ 16 = 0 := by norm_num
    rw [h1, h2, Nat.and_zero, hdiv]
    have h3 : p / 2 ^ 15 &&& 0x7F = p / 2 ^ 15 := by
      have : (0x7F : Nat) = 2 ^ 7 - 1 := by norm_num
      rw [this, Nat.and_pow_two_sub_one_eq_mod, Nat.mod_eq_of_lt (by exact_mod_cast hb)]
    rw [h3]
    norm_num
  have hlow : p &&& 0x7FFF = p % 0x8000 := nat_and_mask_7FFF p
  have hor1 : p % 0x8000 ||| 0x8000 = 0x8000 + p % 0x8000 := by
    have := nat_or_eq_add 15 1 (p % 0x8000) (by
      have : p % 0x8000 < 0x8000 := Nat.mod_lt p (by norm_num)
      norm_num
      omega)
    rw [Nat.lor_comm]
    norm_num at this ⊢
    omega
  have hmain : 0x10000 * (p / 0x8000) ||| (0x8000 + p % 0x8000)
      = 0x10000 * (p / 0x8000) + (0x8000 + p % 0x8000) := by
    have := nat_or_eq_add 16 (p / 0x8000) (0x8000 + p % 0x8000) (by
      have : p % 0x8000 < 0x8000 := Nat.mod_lt p (by norm_num)
      norm_num
      omega)
    norm_num at this ⊢
    omega
  rw [addrSnesTryFromLorom, if_pos hvalid, hshift, hand, hlow, Nat.lor_assoc, hor1, hmain]
  norm_num
  omega

/-- Arithmetic characterization of the SNES-to-PC conversion on its domain. -/
theorem addrPcTryFromLorom_eq (a : Nat) (ha : addrSnesIsValidLorom a = true) :
    addrPcTryFromLorom a = .ok (0x8000 * (a / 0x10000 % 0x80) + a % 0x8000) := by
  have hand : a &&& 0x7F0000 = 0x10000 * (a / 0x10000 % 0x80) := by
    rw [nat_and_split_16]
    have h1 : (0x7F0000 : Nat) / 2 ^ 16 = 0x7F := by norm_num
    have h2 : (0x7F0000 : Nat) % 2 ^ 16 = 0 := by norm_num
    rw [h1, h2, Nat.and_zero]
    have h3 : a / 2 ^ 16 &&& 0x7F = a / 2 ^ 16 % 0x80 := by
      have : (0x7F : Nat) = 2 ^ 7 - 1 := by norm_num
      rw [this, Nat.and_pow_two_sub_one_eq_mod]
    rw [h3]
    norm_num
  have hshift : (0x10000 * (a / 0x10000 % 0x80)) >>> 1 = 0x8000 * (a / 0x10000 % 0x80) := by
    rw [Nat.shiftRight_eq_div_pow]
    set x := a / 0x10000 % 0x80 with hx
    show 0x10000 * x / 2 ^ 1 = 0x8000 * x
    norm_num
    omega
  have hor : 0x8000 * (a / 0x10000 % 0x80) ||| a % 0x8000
      = 0x8000 * (a / 0x10000 % 0x80) + a % 0x8000 := by
    have := nat_or_eq_add 15 (a / 0x10000 % 0x80) (a % 0x8000) (by
      have : a % 0x8000 < 0x8000 := Nat.mod_lt a (by norm_num)
      norm_num
      omega)
    norm_num at this ⊢
    omega
  rw [addrPcTryFromLorom, if_pos ha, hand, hshift, nat_and_mask_7FFF, hor]

/-- Masking an even-bounded byte: `b &&& 0xFE` drops the low bit. -/
theorem nat_and_mask_FE (b : Nat) (hb : b < 0x80) : b &&& 0xFE = 2 * (b / 2) := by
  have hdecomp := nat_and_decompose 1 (b / 2) (b % 2) 0x7F 0 (by omega) (by norm_num)
  have hb2 : 2 ^ 1 * (b / 2) + b % 2 = b := by omega
  have hfe : 2 ^ 1 * 0x7F + 0 = 0xFE := by norm_num
  rw [hb2, hfe] at hdecomp
  rw [hdecomp]
  have h1 : b / 2 &&& 0x7F = b / 2 := by
    have h : (0x7F : Nat) = 2 ^ 7 - 1 := by norm_num
    rw [h, Nat.and_pow_two_sub_one_eq_mod, Nat.mod_eq_of_lt (by omega)]
  rw [h1, Nat.and_zero]
  omega

/-- Low 16 bits of the form `0x8000 + r` always keep bit 15. -/
theorem nat_and_8000 (r : Nat) (hr : r < 0x8000) : (0x8000 + r) &&& 0x8000 = 0x8000 := by
  have hdecomp := nat_and_decompose 15 1 r 1 0 hr (by norm_num)
  have e1 : 2 ^ 15 * 1 + r = 0x8000 + r := by norm_num
  have e2 : 2 ^ 15 * 1 + 0 = 0x8000 := by norm_num
  rw [e1, e2] at hdecomp
  rw [hdecomp]
  norm_num

/-- The logical address produced by the PC-to-SNES conversion from a linear
offset below `0x3F0000`-banked territory is a valid LoROM logical address. -/
theorem addrSnes_of_pc_valid (b r : Nat) (hb : b < 0x80) (hr : r < 0x8000)
    (hbank : b / 2 ≠ 0x3F) :
    addrSnesIsValidLorom (0x10000 * b + 0x8000 + r) = true := by
  set a := 0x10000 * b + 0x8000 + r with hadef
  have hdiv : a / 2 ^ 16 = b := by omega
  have hmod : a % 2 ^ 16 = 0x8000 + r := by omega
  have hwram : a &&& 0xFE0000 = 0x20000 * (b / 2) := by
    rw [nat_and_split_16]
    have h1 : (0xFE0000 : Nat) / 2 ^ 16 = 0xFE := by norm_num
    have h2 : (0xFE0000 : Nat) % 2 ^ 16 = 0 := by norm_num
    rw [h1, h2, Nat.and_zero, hdiv, nat_and_mask_FE b hb]
    omega
  have hjunk : a &&& 0x408000 = 0x10000 * (b &&& 0x40) + 0x8000 := by
    rw [nat_and_split_16]
    have h1 : (0x408000 : Nat) / 2 ^ 16 = 0x40 := by norm_num
    have h2 : (0x408000 : Nat) % 2 ^ 16 = 0x8000 := by norm_num
    rw [h1, h2, hdiv, hmod, nat_and_8000 r hr]
    norm_num
  have hsram : a &&& 0x708000 = 0x10000 * (b &&& 0x70) + 0x8000 := by
    rw [nat_and_split_16]
    have h1 : (0x708000 : Nat) / 2 ^ 16 = 0x70 := by norm_num
    have h2 : (0x708000 : Nat) % 2 ^ 16 = 0x8000 := by norm_num
    rw [h1, h2, hdiv, hmod, nat_and_8000 r hr]
    norm_num
  rw [addrSnesIsValidLorom]
  simp only [hwram, hjunk, hsram]
  have w : (0x20000 * (b / 2) == 0x7E0000) = false := by
    simp only [beq_eq_false_iff_ne, ne_eq]
    omega
  have j : (0x10000 * (b &&& 0x40) + 0x8000 == 0x000000) = false := by
    simp only [beq_eq_false_iff_ne, ne_eq]
    omega
  have s : (0x10000 * (b &&& 0x70) + 0x8000 == 0x700000) = false := by
    simp only [beq_eq_false_iff_ne, ne_eq]
    omega
  simp [w, j, s]

/-- C2 (corrected): round-tripping a valid logical address that is in the image
of the PC-to-SNES conversion through `AddrPc::try_from_lorom` and back through
`AddrSnes::try_from_lorom` returns the original address with no error; and a
valid linear offset whose mapped bank is not the work-RAM pair `0x7E/0x7F`
(i.e. `p &&& 0x3F0000 ≠ 0x3F0000`) round-trips through `AddrSnes::try_from_lorom`
and back with no error.  (The unrestricted linear direction claimed in the spec
is refuted by `addr_roundtrip_counterexample`.) -/
theorem addr_roundtrip_amended :
    (∀ a, addrSnesIsValidLorom a = true → (∃ p, addrSnesTryFromLorom p = .ok a) →
      ∃ q, addrPcTryFromLorom a = .ok q ∧ addrSnesTryFromLorom q = .ok a) ∧
    (∀ p, addrPcIsValidLorom p = true → p &&& 0x3F0000 ≠ 0x3F0000 →
      ∃ a, addrSnesTryFromLorom p = .ok a ∧ addrPcTryFromLorom a = .ok p) := by
  constructor
  · rintro a ha ⟨p, hp⟩
    have hpv : addrPcIsValidLorom p = true := by
      by_contra h
      rw [addrSnesTryFromLorom, if_neg (by simpa using h)] at hp
      exact absurd hp (by simp)
    have hplt : p < 0x400000 := by
      simpa [addrPcIsValidLorom] using hpv
    rw [addrSnesTryFromLorom_eq p hplt] at hp
    have haval : a = 0x10000 * (p / 0x8000) + 0x8000 + p % 0x8000 := by
      cases hp
      rfl
    set b := p / 0x8000 with hbdef
    set r := p % 0x8000 with hrdef
    have hb : b < 0x80 := by omega
    have hr : r < 0x8000 := by omega
    have hdiv : a / 0x10000 % 0x80 = b := by omega
    have hmod : a % 0x8000 = r := by omega
    refine ⟨0x8000 * b + r, ?_, ?_⟩
    · rw [addrPcTryFromLorom_eq a ha, hdiv, hmod]
    · have hq : 0x8000 * b + r < 0x400000 := by omega
      rw [addrSnesTryFromLorom_eq _ hq]
      have h1 : (0x8000 * b + r) / 0x8000 = b := by omega
      have h2 : (0x8000 * b + r) % 0x8000 = r := by omega
      rw [h1, h2, haval]
  · intro p hpv hbank
    have hplt : p < 0x400000 := by
      simpa [addrPcIsValidLorom] using hpv
    set b := p / 0x8000 with hbdef
    set r := p % 0x8000 with hrdef
    have hb : b < 0x80 := by omega
    have hr : r < 0x8000 := by omega
    have hband : p &&& 0x3F0000 = 0x10000 * (b / 2) := by
      rw [nat_and_split_16]
      have h1 : (0x3F0000 : Nat) / 2 ^ 16 = 0x3F := by norm_num
      have h2 : (0x3F0000 : Nat) % 2 ^ 16 = 0 := by norm_num
      rw [h1, h2, Nat.and_zero]
      have h3 : p / 2 ^ 16 &&& 0x3F = p / 2 ^ 16 % 0x40 := by
        have h : (0x3F : Nat) = 2 ^ 6 - 1 := by norm_num
        rw [h, Nat.and_pow_two_sub_one_eq_mod]
      rw [h3]
      have h4 : p / 2 ^ 16 = b / 2 := by omega
      have h5 : b / 2 < 0x40 := by omega
      rw [h4, Nat.mod_eq_of_lt h5]
      omega
    have hb2 : b / 2 ≠ 0x3F := by
      intro h
      apply hbank
      rw [hband, h]
    have hvalid := addrSnes_of_pc_valid b r hb hr hb2
    refine ⟨0x10000 * b + 0x8000 + r, ?_, ?_⟩
    · rw [addrSnesTryFromLorom_eq p hplt]
    · rw [addrPcTryFromLorom_eq _ hvalid]
      have h1 : (0x10000 * b + 0x8000 + r) / 0x10000 % 0x80 = b := by omega
      have h2 : (0x10000 * b + 0x8000 + r) % 0x8000 = r := by omega
      rw [h1, h2]
      congr 1
      omega

/-- C2 counterexample: the linear offset `0x3F0000` is valid for the LoROM
mapping (`< 0x400000`), but converting it to a logical address yields
`0x7E8000`, which lies in the work-RAM window and is rejected by
`AddrPc::try_from_lorom`: the round trip errors instead of returning the
original offset. -/
theorem addr_roundtrip_counterexample :
    addrPcIsValidLorom 0x3F0000 = true ∧
    addrSnesTryFromLorom 0x3F0000 = .ok 0x7E8000 ∧
    addrPcTryFromLorom 0x7E8000 = .error (.invalidSnesLoRom 0x7E8000) := by
  refine ⟨by decide, by decide, by decide⟩

/-- C2 witness: both amended round trips at concrete addresses. -/
theorem addr_roundtrip_witness :
    (∃ q, addrPcTryFromLorom 0x8080 = .ok q ∧ addrSnesTryFromLorom q = .ok 0x8080) ∧
    (∃ a, addrSnesTryFromLorom 0x123 = .ok a ∧ addrPcTryFromLorom a = .ok 0x123) :=
  ⟨addr_roundtrip_amended.1 0x8080 (by decide) ⟨0x80, by decide⟩,
   addr_roundtrip_amended.2 0x123 (by decide) (by decide)⟩

/-! ## Core data model (`disassembler/binary_block.rs`, `processor.rs`,
`instruction.rs`, `jump_tables.rs`, `snes_utils/rom_slice.rs`)

These modules are referenced by `disassembler/mod.rs` but their sources are
not part of the provided tree, so they are modelled from the specification
(§3, §4.2, §6) and from how `mod.rs` uses them. -/

/-- Modelled from the spec: data-block kinds (§3 "Data block"); `mod.rs` uses
`JumpTable` and `JumpTableLong`, the remainder appear in the data-kind list of
the specification. -/
inductive DataKind where
  | empty
  | graphics
  | internalRomHeader
  | jumpTable
  | jumpTableLong
  | levelBackgroundLayer
  | levelObjectLayer
  | levelSpriteLayer
  | music
  | notYetDetermined
  | text
  deriving DecidableEq, Repr

/-- Modelled from the spec: a contiguous logical-address range
(`snes_utils/rom_slice.rs`, `SnesSlice`): a begin address and a byte size. -/
structure SnesSlice where
  first : Nat
  size : Nat
  deriving DecidableEq, Repr

/-- Modelled from the spec: `SnesSlice::contains` — membership of a logical
address in the half-open range `[first, first + size)`. -/
def SnesSlice.containsAddr (s : SnesSlice) (addr : Nat) : Bool :=
  s.first ≤ addr && addr < s.first + s.size

/-- A data block (`binary_block.rs`): a logical-address slice tagged with a
data kind.  Opaque to the walker. -/
structure DataBlock where
  slice : SnesSlice
  kind : DataKind
  deriving DecidableEq, Repr

/-- Modelled from the spec: the processor flag model (§3 "Processor flag
state") — the P register bits that affect decoding (M = `0x20`, X = `0x10`,
as set by `processor.p_reg.0 |= 0x30` in `mod.rs`). -/
structure Processor where
  pReg : Nat
  deriving DecidableEq, Repr

/-- Modelled from the spec: `Processor::new` — the default flag state
(8-bit accumulator and index registers). -/
def Processor.new : Processor := ⟨0x30⟩

def Processor.mFlag (p : Processor) : Bool := (p.pReg &&& 0x20) != 0

def Processor.xFlag (p : Processor) : Bool := (p.pReg &&& 0x10) != 0

/-- Modelled from the spec: the instruction-decoder contract (§4.2).  One
decoded instruction: source offset, encoded size, the control-flow
classification queries `mod.rs` performs on it, its possible successor
logical addresses, the width-flag snapshot, and its effect on the flag
state expressed as set/clear masks on the P register. -/
structure Instruction where
  offset : Nat
  size : Nat
  mFlag : Bool
  xFlag : Bool
  canChangePc : Bool
  usesJumpTable : Bool
  isSubroutineCall : Bool
  isSubroutineReturn : Bool
  isSinglePathLeap : Bool
  nextInstructions : List Nat
  pSet : Nat
  pClear : Nat
  deriving DecidableEq, Repr

/-- Modelled from the spec: simulating one instruction's effect on the width
flags (§4.4 step 2): bits in `pSet` are set, bits in `pClear` are cleared. -/
def Instruction.applyTo (i : Instruction) (p : Processor) : Processor :=
  ⟨(p.pReg ||| i.pSet) &&& (0xFF ^^^ (i.pClear &&& 0xFF))⟩

/-- A code block (`binary_block.rs`, destructured field-for-field in
`mod.rs::split_block_at`). -/
structure CodeBlock where
  instructions : List Instruction
  exits : List Nat
  entrances : List Nat
  entryProcessorState : Processor
  finalProcessorState : Processor
  deriving DecidableEq, Repr

instance : Inhabited CodeBlock :=
  ⟨⟨[], [], [], Processor.new, Processor.new⟩⟩

/-- Modelled from the spec: `CodeBlock::recalculate_final_processor_state` —
replay every instruction's effect on the flags starting from the entry state
(§4.5). -/
def CodeBlock.recalculateFinal (cb : CodeBlock) : CodeBlock :=
  { cb with
    finalProcessorState := cb.instructions.foldl (fun p i => i.applyTo p) cb.entryProcessorState }

/-- A classified block (`binary_block.rs`, `BinaryBlock`). -/
inductive BinaryBlock where
  | code (cb : CodeBlock)
  | data (db : DataBlock)
  | unknown
  | endOfRom
  deriving DecidableEq, Repr

/-- `BinaryBlock::code_block` — the code block carried, if any. -/
def BinaryBlock.codeBlock : BinaryBlock → Option CodeBlock
  | .code cb => some cb
  | _ => none

def BinaryBlock.isUnknown : BinaryBlock → Bool
  | .unknown => true
  | _ => false

/-- Disassembly errors used by the walker (`error.rs` via `mod.rs`). -/
inductive DisassemblyError where
  | invalidAddrInCodeBlock (blockStart : Nat) (lastInstruction : Instruction)
  | subroutineWithoutReturn (subStart : Nat)
  deriving DecidableEq, Repr

/-- Data-registration errors (`RomError::DataBlockNotFound`). -/
inductive RomDataError where
  | dataBlockNotFound (db : DataBlock)
  | sliceLoRom (s : SnesSlice)
  deriving DecidableEq, Repr

/-- Modelled from the spec: one jump-table registry entry
(`jump_tables.rs`, `JUMP_TABLES`): base logical address, byte length,
pointer width. -/
structure JumpTableView where
  first : Nat
  length : Nat
  longPtrs : Bool
  deriving DecidableEq, Repr

/-- `masks::HHDD` absolute (16-bit) part of a logical address
(`AddrSnes::absolute`, used by `mod.rs` to drop null pointers). -/
def addrAbsolute (a : Nat) : Nat := a &&& 0xFFFF

/-- Modelled from the spec: reading the pointer entries of a jump table
(`jump_tables.rs`, `get_jump_table_from_rom`): little-endian pointers of the
registered width read from the ROM image; short (2-byte) pointers are
completed with the table's own bank byte. -/
def readJumpTablePtrs (rom : List Nat) (bank : Nat) (long : Bool) :
    Nat → Nat → Option (List Nat)
  | _, 0 => some []
  | pc, n + 1 => do
    let b0 ← rom.get? pc
    let b1 ← rom.get? (pc + 1)
    let v ←
      if long then do
        let b2 ← rom.get? (pc + 2)
        pure (b0 + 0x100 * b1 + 0x10000 * b2)
      else
        pure (bank ||| (b0 + 0x100 * b1))
    let rest ← readJumpTablePtrs rom bank long (pc + (if long then 3 else 2)) n
    pure (v :: rest)

/-- Modelled from the spec: `get_jump_table_from_rom` — decode the registered
byte range `[first, first + length)` into pointer entries. -/
def getJumpTableFromRom (rom : List Nat) (jtv : JumpTableView) : Option (List Nat) :=
  match addrPcTryFromLorom jtv.first with
  | .error _ => none
  | .ok pc =>
    let w := if jtv.longPtrs then 3 else 2
    readJumpTablePtrs rom (jtv.first &&& 0xFF0000) jtv.longPtrs pc (jtv.length / w)

/-- Modelled from the spec: `CodeBlock::from_bytes` decoding loop — decode
successive instructions until one that can alter control flow is produced or
the boundary is reached (§4.4 step 2).  Returns the decoded instructions, the
address after the block and the final flag state.  The width-flag snapshot
stored on each instruction is the state active when it was decoded. -/
def fromBytesLoop (decode : Nat → Processor → Option Instruction) :
    Nat → Nat → Nat → Processor → (List Instruction × Nat × Processor)
  | 0, o, _, p => ([], o, p)
  | fuel + 1, o, e, p =>
    if o ≥ e then ([], o, p)
    else
      match decode o p with
      | none => ([], o, p)
      | some i =>
        let meta := { i with offset := o, mFlag := p.mFlag, xFlag := p.xFlag }
        let p2 := meta.applyTo p
        if meta.canChangePc then ([meta], o + meta.size, p2)
        else
          let r := fromBytesLoop decode fuel (o + meta.size) e p2
          (meta :: r.1, r.2.1, r.2.2)

/-- Modelled from the spec: `CodeBlock::from_bytes(code_start, bytes,
&mut processor)` — returns the block, the address after it, and the mutated
processor. -/
def codeBlockFromBytes (decode : Nat → Processor → Option Instruction)
    (start endBound : Nat) (p : Processor) : (CodeBlock × Nat × Processor) :=
  let r := fromBytesLoop decode (endBound - start + 1) start endBound p
  (⟨r.1, [], [], p, r.2.2⟩, r.2.1, r.2.2)

/-! ## Walker state (`disassembler/mod.rs`, `RomAssemblyWalker`)

The `BTreeMap`/`HashMap`/`HashSet`/`VecDeque` containers are modelled as
lists with the exact operational behaviour the walker relies on: the
`BTreeMap` range query returns the entry with the smallest key at or above
the bound, the hash containers are keyed association lists, and the deque
pops from the front, with `push_front`/`push_back` at the two ends. -/

/-- `StepSubroutine`: subroutine step with its caller chain
(`caller: Option<Box<StepSubroutine>>`). -/
inductive StepSubroutine where
  | mk (codeStart : Nat) (entrance : Nat) (caller : Option StepSubroutine)

/-- Boolean equality on subroutine steps (structural, along the caller chain). -/
def StepSubroutine.beqStep : StepSubroutine → StepSubroutine → Bool
  | .mk c e none, .mk c2 e2 none => c == c2 && e == e2
  | .mk c e (some x), .mk c2 e2 (some y) => c == c2 && e == e2 && StepSubroutine.beqStep x y
  | _, _ => false

theorem StepSubroutine.beqStep_iff : ∀ a b : StepSubroutine, StepSubroutine.beqStep a b = true ↔ a = b
  | .mk c e none, .mk c2 e2 none => by
    simp [StepSubroutine.beqStep]
  | .mk _ _ none, .mk _ _ (some _) => by
    simp [StepSubroutine.beqStep]
  | .mk _ _ (some _), .mk _ _ none => by
    simp [StepSubroutine.beqStep]
  | .mk c e (some x), .mk c2 e2 (some y) => by
    have ih := StepSubroutine.beqStep_iff x y
    simp [StepSubroutine.beqStep, ih]
    tauto

instance : DecidableEq StepSubroutine := fun a b =>
  decidable_of_iff _ (StepSubroutine.beqStep_iff a b)

def StepSubroutine.codeStart : StepSubroutine → Nat
  | .mk c _ _ => c

def StepSubroutine.entrance : StepSubroutine → Nat
  | .mk _ e _ => e

def StepSubroutine.caller : StepSubroutine → Option StepSubroutine
  | .mk _ _ c => c

/-- `StepSubroutine::sub_exists_in_call_hierarchy`. -/
def StepSubroutine.subExistsInCallHierarchy : StepSubroutine → Nat → Bool
  | .mk c _ caller, subAddr =>
    if c = subAddr then true
    else
      match caller with
      | some s => s.subExistsInCallHierarchy subAddr
      | none => false

/-- The caller chain of a subroutine step as a list of entry addresses. -/
def StepSubroutine.chain : StepSubroutine → List Nat
  | .mk c _ caller =>
    c :: (match caller with
          | some s => s.chain
          | none => [])

/-- `StepBasicBlock`. -/
structure StepBasicBlock where
  codeStart : Nat
  processor : Processor
  entrance : Nat
  deriving DecidableEq, Repr

/-- `RomAssemblyWalkerStep`. -/
inductive RomAssemblyWalkerStep where
  | basicBlock (s : StepBasicBlock)
  | subroutine (s : StepSubroutine)
  deriving DecidableEq

/-- `SubroutineAnalysisState`. -/
structure SubroutineAnalysisState where
  codeBlocks : List Nat
  analysedBlocks : List Nat
  remainingBlocks : List Nat
  finalProcessorState : Processor
  deriving DecidableEq, Repr

/-- `SubroutineAnalysisState::is_complete`. -/
def SubroutineAnalysisState.isComplete (s : SubroutineAnalysisState) : Bool :=
  s.remainingBlocks.isEmpty

/-- The fresh record built by `analyse_subroutine`'s `or_insert_with`. -/
def SubroutineAnalysisState.new (codeStart : Nat) : SubroutineAnalysisState :=
  ⟨[], [], [codeStart], Processor.new⟩

/-- The walker (`RomAssemblyWalker`): ROM bytes, the decoder collaborator,
the static jump-table registry, and the algorithm state. -/
structure RomAssemblyWalkerState where
  rom : List Nat
  decode : Nat → Processor → Option Instruction
  jumpTables : List JumpTableView
  nonCodeJumpAddresses : List Nat
  chunks : List (Nat × BinaryBlock)
  analysedChunks : List (Nat × Nat × Nat)
  remainingSteps : List RomAssemblyWalkerStep
  analysedCodeStarts : List Nat
  subroutineReturns : List (Nat × List Nat)
  analysedSubroutines : List (Nat × SubroutineAnalysisState)

/-- Keyed lookup in an association list (`HashMap::get`). -/
def assocFind {α : Type} (m : List (Nat × α)) (k : Nat) : Option α :=
  (m.find? (fun e => e.1 == k)).map (·.2)

/-- Keyed update in an association list (`HashMap` entry write). -/
def assocSet {α : Type} (m : List (Nat × α)) (k : Nat) (v : α) : List (Nat × α) :=
  if m.any (fun e => e.1 == k) then m.map (fun e => if e.1 == k then (k, v) else e)
  else m ++ [(k, v)]

/-- `subroutine_returns.entry(k).or_default().push(v)`. -/
def subReturnsPush (m : List (Nat × List Nat)) (k v : Nat) : List (Nat × List Nat) :=
  match assocFind m k with
  | some l => assocSet m k (l ++ [v])
  | none => assocSet m k [v]

/-- `BTreeMap` insert (replacing an existing entry with the same key). -/
def btreeInsert (m : List (Nat × Nat × Nat)) (k : Nat) (v : Nat × Nat) :
    List (Nat × Nat × Nat) :=
  (k, v) :: m.filter (fun e => e.1 ≠ k)

/-- `BTreeMap` remove. -/
def btreeRemove (m : List (Nat × Nat × Nat)) (k : Nat) : List (Nat × Nat × Nat) :=
  m.filter (fun e => e.1 ≠ k)

/-- `BTreeMap::range(lo..).next()` — the entry with the smallest key `≥ lo`. -/
def btreeRangeNext (m : List (Nat × Nat × Nat)) (lo : Nat) : Option (Nat × Nat × Nat) :=
  m.foldl
    (fun best e =>
      if lo ≤ e.1 then
        match best with
        | none => some e
        | some b => if e.1 < b.1 then some e else some b
      else best)
    none

/-- `BlockFindResult`. -/
inductive BlockFindResult where
  | found (rangeStart rangeEnd rangeVecIdx : Nat)
  | missingWithNext (nextStart : Nat)
  | missing
  deriving DecidableEq, Repr

/-- `RomAssemblyWalker::find_analysed_chunk_at`. -/
def findAnalysedChunkAt (st : RomAssemblyWalkerState) (instruction : Nat) : BlockFindResult :=
  match btreeRangeNext st.analysedChunks (instruction + 1) with
  | some (rangeEnd, rangeStart, rangeVecIdx) =>
    if rangeStart ≤ instruction ∧ instruction < rangeEnd then
      .found rangeStart rangeEnd rangeVecIdx
    else
      .missingWithNext rangeStart
  | none => .missing

/-- `RomAssemblyWalker::enqueue_basic_block` — pushes the step to the front of
the worklist only when its start address is newly inserted into
`analysed_code_starts`; returns whether it pushed. -/
def enqueueBasicBlock (st : RomAssemblyWalkerState) (step : StepBasicBlock) :
    RomAssemblyWalkerState × Bool :=
  if step.codeStart ∈ st.analysedCodeStarts then (st, false)
  else
    ({ st with
       analysedCodeStarts := step.codeStart :: st.analysedCodeStarts,
       remainingSteps := .basicBlock step :: st.remainingSteps }, true)

/-- `RomAssemblyWalker::enqueue_subroutine` — pushes the step to the front of
the worklist only when no analysis record exists for its start address. -/
def enqueueSubroutine (st : RomAssemblyWalkerState) (step : StepSubroutine) :
    RomAssemblyWalkerState × Bool :=
  if (assocFind st.analysedSubroutines step.codeStart).isSome then (st, false)
  else ({ st with remainingSteps := .subroutine step :: st.remainingSteps }, true)

/-- `RomAssemblyWalker::split_block_at` — split the code chunk
`[rangeStart, rangeEnd)` in two at `middleStart`.  Returns `none` on the
source's panics (non-code chunk, mismatched start, empty first half, failed
address conversion in an `unwrap`). -/
def splitBlockAt (st : RomAssemblyWalkerState) (rangeStart rangeEnd rangeVecIdx middleStart
    entrance : Nat) : Option (RomAssemblyWalkerState × Nat) :=
  match st.chunks.get? rangeVecIdx with
  | none => none
  | some (originalPc, originalBlock) =>
    match originalBlock.codeBlock with
    | none => none
    | some cb =>
      if originalPc ≠ rangeStart then none
      else
        match (addrSnesTryFromLorom middleStart).toOption with
        | none => none
        | some middleSnes =>
          let firstInstructions := cb.instructions.filter (fun i => i.offset < middleStart)
          let secondInstructions := cb.instructions.filter (fun i => ¬(i.offset < middleStart))
          match firstInstructions.getLast? with
          | none => none
          | some lastFirst =>
            match (addrSnesTryFromLorom lastFirst.offset).toOption with
            | none => none
            | some lastFirstSnes =>
              let firstBlock : CodeBlock :=
                CodeBlock.recalculateFinal
                  ⟨firstInstructions, [middleSnes], cb.entrances, cb.entryProcessorState,
                    Processor.new⟩
              let secondBlock : CodeBlock :=
                ⟨secondInstructions, cb.exits, [entrance, lastFirstSnes],
                  firstBlock.finalProcessorState, cb.finalProcessorState⟩
              let chunks1 := st.chunks.set rangeVecIdx (middleStart, .code secondBlock)
              let chunks2 := chunks1 ++ [(rangeStart, .code firstBlock)]
              let m1 := btreeRemove st.analysedChunks rangeEnd
              let m2 := btreeInsert m1 rangeEnd (middleStart, rangeVecIdx)
              let m3 := btreeInsert m2 middleStart (rangeStart, chunks2.length - 1)
              some ({ st with
                      chunks := chunks2,
                      analysedChunks := m3,
                      analysedCodeStarts :=
                        if middleStart ∈ st.analysedCodeStarts then st.analysedCodeStarts
                        else middleStart :: st.analysedCodeStarts },
                    chunks2.length - 1)

/-! ## `RomAssemblyWalker::analyse_basic_block` -/

/-- The common block-commit tail of `analyse_basic_block`: push the Code
chunk, index its end address, and add the trailing Unknown chunk when the
fall-through address was not already covered by one of the block's own
successors. -/
def commitBlock (st : RomAssemblyWalkerState) (codeStart addrAfter : Nat) (cb : CodeBlock)
    (nextCovered : Bool) : RomAssemblyWalkerState :=
  let st1 := { st with chunks := st.chunks ++ [(codeStart, BinaryBlock.code cb)] }
  let st2 := { st1 with
               analysedChunks := btreeInsert st1.analysedChunks addrAfter
                 (codeStart, st1.chunks.length - 1) }
  if nextCovered then st2
  else { st2 with chunks := st2.chunks ++ [(addrAfter, BinaryBlock.unknown)] }

/-- The `for &next_target_snes in next_instructions` loop of
`analyse_basic_block`: convert each successor, fail the path with
`InvalidAddrInCodeBlock` on an in-mapping successor at or past the image
end (after committing the partial block), otherwise record the exit and
enqueue a continuation step.  `Sum.inl` is the early error return,
`Sum.inr` continues with the updated state, block and coverage flag;
`none` models the source's `unwrap` panics. -/
def processTargets (codeStart addrAfter : Nat) (last : Instruction) (processor : Processor) :
    List Nat → RomAssemblyWalkerState → CodeBlock → Bool →
    Option ((RomAssemblyWalkerState × Except DisassemblyError Unit) ⊕
      (RomAssemblyWalkerState × CodeBlock × Bool))
  | [], st, cb, nc => some (.inr (st, cb, nc))
  | t :: ts, st, cb, nc =>
    match addrPcTryFromLorom t with
    | .error _ => processTargets codeStart addrAfter last processor ts st cb nc
    | .ok pc =>
      if pc ≥ st.rom.length then
        let st1 := { st with chunks := st.chunks ++ [(codeStart, BinaryBlock.code cb)] }
        let st2 := { st1 with
                     analysedChunks := btreeInsert st1.analysedChunks addrAfter
                       (codeStart, st1.chunks.length - 1) }
        let st3 := if nc then st2
          else { st2 with chunks := st2.chunks ++ [(addrAfter, BinaryBlock.unknown)] }
        some (.inl (st3, .error (.invalidAddrInCodeBlock codeStart last)))
      else
        match addrSnesTryFromLorom codeStart with
        | .error _ => none
        | .ok entranceSnes =>
          let nc2 := if pc = addrAfter then true else nc
          let cb2 := { cb with exits := cb.exits ++ [t] }
          let st2 := (enqueueBasicBlock st ⟨pc, processor, entranceSnes⟩).1
          processTargets codeStart addrAfter last processor ts st2 cb2 nc2

/-- The trailing `enqueue_subroutine` loop of `analyse_basic_block` (run when
the block ends in a jump-table dispatch or a subroutine call). -/
def enqueueSubsLoop (entranceOffset : Nat) :
    List Nat → RomAssemblyWalkerState → Option RomAssemblyWalkerState
  | [], st => some st
  | t :: ts, st =>
    match addrPcTryFromLorom t with
    | .error _ => enqueueSubsLoop entranceOffset ts st
    | .ok pc =>
      match addrSnesTryFromLorom entranceOffset with
      | .error _ => none
      | .ok ent =>
        enqueueSubsLoop entranceOffset ts (enqueueSubroutine st (.mk pc ent none)).1

/-- Successor processing plus final commit, shared by all branches of
`analyse_basic_block` once the successor list is known. -/
def finishTargets (codeStart addrAfter : Nat) (last : Instruction) (processor : Processor)
    (enqSubs : Bool) (st : RomAssemblyWalkerState) (cb : CodeBlock) (nextInstr : List Nat) :
    Option (RomAssemblyWalkerState × Except DisassemblyError Unit) := do
  match ← processTargets codeStart addrAfter last processor nextInstr st cb false with
  | .inl result => some result
  | .inr (st2, cb2, nc) =>
    let st3 ←
      if enqSubs then enqueueSubsLoop last.offset nextInstr st2
      else some st2
    some (commitBlock st3 codeStart addrAfter cb2 nc, .ok ())

/-- The body of `analyse_basic_block` when no chunk already covers the start
address: decode the block and dispatch on its terminating instruction. -/
def analyseBasicBlockBody (st : RomAssemblyWalkerState) (step : StepBasicBlock)
    (nextKnownStart : Nat) : Option (RomAssemblyWalkerState × Except DisassemblyError Unit) :=
  let r := codeBlockFromBytes st.decode step.codeStart nextKnownStart step.processor
  let addrAfter := r.2.1
  let processor := r.2.2
  let cb := { r.1 with entrances := r.1.entrances ++ [step.entrance] }
  match cb.instructions.getLast? with
  | none => none
  | some last =>
    if last.canChangePc then
      if last.usesJumpTable then
        let processor2 : Processor := ⟨processor.pReg ||| 0x30⟩
        match addrSnesTryFromLorom addrAfter with
        | .error _ => none
        | .ok jta =>
          match st.jumpTables.find? (fun t => t.first == jta) with
          | none =>
            finishTargets step.codeStart addrAfter last processor2 true st cb []
          | some jtv =>
            match getJumpTableFromRom st.rom jtv with
            | none => none
            | some addresses =>
              let nextInstr :=
                (addresses.filter (fun a => addrAbsolute a != 0)).filter
                  (fun a => !(st.nonCodeJumpAddresses.contains a))
              let st2 := { st with
                           chunks := st.chunks ++
                             [(addrAfter, BinaryBlock.data ⟨⟨jtv.first, jtv.length⟩,
                               if jtv.longPtrs then .jumpTableLong else .jumpTable⟩)] }
              finishTargets step.codeStart addrAfter last processor2 true st2 cb nextInstr
      else if last.isSubroutineCall then
        match addrSnesTryFromLorom step.codeStart with
        | .error _ => none
        | .ok entSnes =>
          match last.nextInstructions.head? with
          | none => none
          | some t0 =>
            let stepFollowing : StepBasicBlock := ⟨addrAfter, processor, entSnes⟩
            let st2 :=
              match addrPcTryFromLorom t0 with
              | .ok subStart =>
                let stA := { st with
                             subroutineReturns :=
                               subReturnsPush st.subroutineReturns subStart addrAfter }
                match assocFind stA.analysedSubroutines subStart with
                | some sub =>
                  if sub.isComplete then
                    (enqueueBasicBlock stA
                      { stepFollowing with processor := sub.finalProcessorState }).1
                  else stA
                | none => stA
              | .error _ => (enqueueBasicBlock st stepFollowing).1
            finishTargets step.codeStart addrAfter last processor true st2 cb
              last.nextInstructions
      else
        finishTargets step.codeStart addrAfter last processor false st cb
          last.nextInstructions
    else
      some (commitBlock st step.codeStart addrAfter cb false, .ok ())

/-- `RomAssemblyWalker::analyse_basic_block`.  `none` models the source's
panics (empty code block, `unwrap` failures). -/
def analyseBasicBlock (st : RomAssemblyWalkerState) (step : StepBasicBlock) :
    Option (RomAssemblyWalkerState × Except DisassemblyError Unit) :=
  match findAnalysedChunkAt st step.codeStart with
  | .found rangeStart rangeEnd rangeVecIdx =>
    if step.codeStart ≠ rangeStart then
      match splitBlockAt st rangeStart rangeEnd rangeVecIdx step.codeStart step.entrance with
      | none => none
      | some (st2, _) => some (st2, .ok ())
    else some (st, .ok ())
  | .missingWithNext nextStart => analyseBasicBlockBody st step nextStart
  | .missing => analyseBasicBlockBody st step st.rom.length

/-! ## `RomAssemblyWalker::analyse_subroutine` -/

/-- The `exits.map(...).filter(|&a| sub.analysed_blocks.insert(a))` step:
convert every exit of the block and push the newly seen ones onto the
subroutine's remaining-blocks worklist (`none` models the conversion
`unwrap` panic). -/
def subAddPending (sub : SubroutineAnalysisState) :
    List Nat → Option SubroutineAnalysisState
  | [] => some sub
  | e :: es =>
    match addrPcTryFromLorom e with
    | .error _ => none
    | .ok a =>
      if a ∈ sub.analysedBlocks then subAddPending sub es
      else
        subAddPending
          { sub with
            analysedBlocks := a :: sub.analysedBlocks,
            remainingBlocks := sub.remainingBlocks ++ [a] } es

/-- The exit-classification step of the `analyse_subroutine` loop body for a
block that does not end in a jump-table dispatch.  `Sum.inl` is the early
suspension return taken when a nested subroutine step was actually enqueued
(the record is written back to the walker's map, as the source's shared
`Rc<RefCell<..>>` record makes every mutation immediately visible);
`Sum.inr` continues. -/
def subProcessExits (step : StepSubroutine) (st : RomAssemblyWalkerState)
    (sub : SubroutineAnalysisState) (block : CodeBlock) (last : Instruction)
    (addrAfter : Nat) :
    Option (RomAssemblyWalkerState ⊕ (RomAssemblyWalkerState × SubroutineAnalysisState)) :=
  if block.exits.isEmpty then some (.inr (st, sub))
  else if last.isSubroutineCall then
    match block.exits.head? with
    | none => none
    | some e0 =>
      match addrPcTryFromLorom e0 with
      | .error _ => none
      | .ok subLocation =>
        let stR := { st with
                     subroutineReturns :=
                       subReturnsPush st.subroutineReturns subLocation addrAfter }
        if step.subExistsInCallHierarchy subLocation then
          some (.inr
            ((enqueueBasicBlock stR ⟨addrAfter, sub.finalProcessorState, step.entrance⟩).1,
             sub))
        else
          match addrSnesTryFromLorom last.offset with
          | .error _ => none
          | .ok entSnes =>
            let r := enqueueSubroutine stR (.mk subLocation entSnes (some step))
            if r.2 then
              let sub2 := { sub with remainingBlocks := sub.remainingBlocks ++ [addrAfter] }
              some (.inl
                { r.1 with
                  analysedSubroutines :=
                    assocSet r.1.analysedSubroutines step.codeStart sub2 })
            else some (.inr (r.1, sub))
  else if !last.isSubroutineReturn then
    match subAddPending sub block.exits with
    | none => none
    | some sub2 => some (.inr (st, sub2))
  else some (.inr (st, sub))

/-- The `while let Some(curr_code_start) = sub.remaining_blocks.pop()` loop of
`analyse_subroutine`.  `Sum.inl` is an early `Ok(())` suspension return,
`Sum.inr` means the worklist drained (analysis complete). -/
def analyseSubLoop (step : StepSubroutine) :
    Nat → RomAssemblyWalkerState → SubroutineAnalysisState →
    Option (RomAssemblyWalkerState ⊕ (RomAssemblyWalkerState × SubroutineAnalysisState))
  | 0, _, _ => none
  | fuel + 1, st, sub =>
    match sub.remainingBlocks.getLast? with
    | none => some (.inr (st, sub))
    | some curr =>
      let sub1 := { sub with remainingBlocks := sub.remainingBlocks.dropLast }
      match findAnalysedChunkAt st curr with
      | .found _ _ idx =>
        let sub2 := { sub1 with codeBlocks := sub1.codeBlocks ++ [idx] }
        match (st.chunks.get? idx).bind (fun c => c.2.codeBlock) with
        | none => none
        | some block =>
          match block.instructions.getLast? with
          | none => none
          | some last =>
            if last.usesJumpTable then analyseSubLoop step fuel st sub2
            else
              let addrAfter := last.offset + last.size
              match subProcessExits step st sub2 block last addrAfter with
              | none => none
              | some (.inl stSusp) => some (.inl stSusp)
              | some (.inr (st3, sub3)) =>
                if !last.isSinglePathLeap && !(sub3.analysedBlocks.contains addrAfter) then
                  analyseSubLoop step fuel st3
                    { sub3 with
                      analysedBlocks := addrAfter :: sub3.analysedBlocks,
                      remainingBlocks := sub3.remainingBlocks ++ [addrAfter] }
                else analyseSubLoop step fuel st3 sub3
      | _ =>
        let sub2 := { sub1 with remainingBlocks := sub1.remainingBlocks ++ [curr] }
        let st2 := { st with
                     remainingSteps := st.remainingSteps ++ [.subroutine step],
                     analysedSubroutines :=
                       assocSet st.analysedSubroutines step.codeStart sub2 }
        some (.inl st2)

/-- The completion scan
`sub.code_blocks.iter().find(|idx| last is return or jump table)`.
`none` is a panic while scanning (non-code chunk or empty block);
`some none` means no constituent block ends in a return or jump-table
dispatch; `some (some idx)` is the first matching block index. -/
def findReturningBlock (chunks : List (Nat × BinaryBlock)) :
    List Nat → Option (Option Nat)
  | [] => some none
  | idx :: rest =>
    match (chunks.get? idx).bind (fun c => c.2.codeBlock) with
    | none => none
    | some cb =>
      match cb.instructions.getLast? with
      | none => none
      | some last =>
        if last.isSubroutineReturn || last.usesJumpTable then some (some idx)
        else findReturningBlock chunks rest

/-- `RomAssemblyWalker::analyse_subroutine`.  The loop fuel bounds the number
of iterations of the inner worklist loop; `none` models the source's panics
(and fuel exhaustion, which never occurs on the concrete runs used here). -/
def analyseSubroutine (fuel : Nat) (st : RomAssemblyWalkerState) (step : StepSubroutine) :
    Option (RomAssemblyWalkerState × Except DisassemblyError Unit) :=
  let entry :=
    match assocFind st.analysedSubroutines step.codeStart with
    | some r => (r, st)
    | none =>
      let r := SubroutineAnalysisState.new step.codeStart
      (r, { st with analysedSubroutines := assocSet st.analysedSubroutines step.codeStart r })
  match analyseSubLoop step fuel entry.2 entry.1 with
  | none => none
  | some (.inl stSusp) => some (stSusp, .ok ())
  | some (.inr (st1, sub1)) =>
    match findReturningBlock st1.chunks sub1.codeBlocks with
    | none => none
    | some none =>
      let st2 := { st1 with
                   analysedSubroutines := assocSet st1.analysedSubroutines step.codeStart sub1 }
      match addrSnesTryFromLorom step.codeStart with
      | .error _ => none
      | .ok snes => some (st2, .error (.subroutineWithoutReturn snes))
    | some (some idx) =>
      match (st1.chunks.get? idx).bind (fun c => c.2.codeBlock) with
      | none => none
      | some blk =>
        let sub2 := { sub1 with finalProcessorState := blk.finalProcessorState }
        let st2 := { st1 with
                     analysedSubroutines := assocSet st1.analysedSubroutines step.codeStart sub2 }
        let st3 :=
          match step.caller with
          | some c => (enqueueSubroutine st2 c).1
          | none => st2
        match assocFind st3.subroutineReturns step.codeStart with
        | some returns =>
          let st4 := returns.foldl
            (fun s r =>
              (enqueueBasicBlock s ⟨r, sub2.finalProcessorState, step.entrance⟩).1) st3
          some (st4, .ok ())
        | none => some (st3, .ok ())

/-! ## `RomAssemblyWalker::cleanup` and `full_analysis` -/

/-- One step of a (stable) insertion sort by start address, matching the
effect of the source's `sort_by_key`. -/
def cleanupSortInsert (x : Nat × BinaryBlock) :
    List (Nat × BinaryBlock) → List (Nat × BinaryBlock)
  | [] => [x]
  | y :: ys => if y.1 ≤ x.1 then y :: cleanupSortInsert x ys else x :: y :: ys

/-- Sorting the chunk list by start address (`chunks.sort_by_key`). -/
def cleanupSort (l : List (Nat × BinaryBlock)) : List (Nat × BinaryBlock) :=
  l.foldl (fun acc x => cleanupSortInsert x acc) []

/-- The same-start merge of `cleanup`'s `group_by` fold: within a run of
chunks sharing a start address, a non-Unknown classification replaces
Unknown, and two non-Unknown chunks at one address abort with that
address (`panic!("Multiple chunks generated at address ...")`, modelled as
`Except.error addr`). -/
def dedupMerge : (Nat × BinaryBlock) → List (Nat × BinaryBlock) →
    Except Nat (List (Nat × BinaryBlock))
  | cur, [] => .ok [cur]
  | cur, c :: cs =>
    if c.1 = cur.1 then
      if cur.2.isUnknown then dedupMerge c cs
      else if c.2.isUnknown then dedupMerge cur cs
      else .error cur.1
    else
      match dedupMerge c cs with
      | .error e => .error e
      | .ok r => .ok (cur :: r)

/-- `RomAssemblyWalker::cleanup`: append the EndOfRom sentinel at the image
length, sort by start address, and merge same-start duplicates. -/
def cleanup (chunks : List (Nat × BinaryBlock)) (romLen : Nat) :
    Except Nat (List (Nat × BinaryBlock)) :=
  match cleanupSort (chunks ++ [(romLen, .endOfRom)]) with
  | [] => .ok []
  | c :: cs => dedupMerge c cs

/-- `RomAssemblyWalker::full_analysis`: drain the worklist, propagating the
first error (`?`), then run `cleanup`.  The error value is returned together
with the walker state at that point; `none` models panics and fuel
exhaustion. -/
def fullAnalysis :
    Nat → RomAssemblyWalkerState → Option (RomAssemblyWalkerState × Except DisassemblyError Unit)
  | 0, _ => none
  | fuel + 1, st =>
    match st.remainingSteps with
    | [] =>
      match cleanup st.chunks st.rom.length with
      | .error _ => none
      | .ok out => some ({ st with chunks := out }, .ok ())
    | step :: rest =>
      let st1 := { st with remainingSteps := rest }
      let r :=
        match step with
        | .basicBlock s => analyseBasicBlock st1 s
        | .subroutine s => analyseSubroutine fuel st1 s
      match r with
      | none => none
      | some (st2, .error e) => some (st2, .error e)
      | some (st2, .ok _) => fullAnalysis fuel st2

/-! ## `RomDisassembly::data_block_at` (post-walk data registration) -/

/-- The finished disassembly (`RomDisassembly`): ROM bytes, the chunk store
and the cache of already-registered data blocks. -/
structure RomDisassemblyState where
  rom : List Nat
  chunks : List (Nat × BinaryBlock)
  cachedDataBlocks : List DataBlock

/-- `SplitType` (local enum of `data_block_at`). -/
inductive SplitType where
  | noSplit
  | start (i : Nat)
  | middle (i : Nat)
  deriving DecidableEq, Repr

/-- Outcome of the window scan of `data_block_at`. -/
inductive DbScanOutcome where
  | notFoundErr
  | foundSplit (s : SplitType)
  deriving DecidableEq, Repr

/-- List insertion at an index (`Vec::insert`). -/
def listInsertAt {α : Type} (l : List α) (i : Nat) (x : α) : List α :=
  l.take i ++ [x] ++ l.drop i

/-- Modelled from the spec: `Rom::slice_lorom` (`snes_utils/rom.rs`) — the
bytes of a logical slice, or an error when the slice does not map into the
image. -/
def sliceLorom (rom : List Nat) (s : SnesSlice) : Except RomDataError (List Nat) :=
  match addrPcTryFromLorom s.first with
  | .error _ => .error (.sliceLoRom s)
  | .ok pc =>
    if pc + s.size ≤ rom.length then .ok ((rom.drop pc).take s.size)
    else .error (.sliceLoRom s)

/-- The `tuple_windows().enumerate()` scan of `data_block_at`: find the chunk
window that decides how to place the requested data block.  The outer
`Option` models the source's per-iteration `unwrap` of the next chunk start;
`some none` means the loop finished without finding a place. -/
def dbScanLoop (db : DataBlock) (addr : Nat) :
    Nat → List (Nat × BinaryBlock) → Option (Option DbScanOutcome)
  | _, [] => some none
  | _, [_] => some none
  | i, c1 :: c2 :: rest =>
    match addrSnesTryFromLorom c2.1 with
    | .error _ => none
    | .ok nextChunkSnes =>
      match compare c1.1 addr with
      | .eq =>
        match c1.2 with
        | .code _ => some (some .notFoundErr)
        | .endOfRom => some (some .notFoundErr)
        | .data fb =>
          if fb ≠ db then some (some .notFoundErr)
          else some (some (.foundSplit .noSplit))
        | .unknown =>
          if db.slice.containsAddr nextChunkSnes then some (some .notFoundErr)
          else some (some (.foundSplit (.start i)))
      | .lt =>
        if c1.1 ≤ addr ∧ addr < c2.1 then some (some (.foundSplit (.middle i)))
        else dbScanLoop db addr (i + 1) (c2 :: rest)
      | .gt => dbScanLoop db addr (i + 1) (c2 :: rest)

/-- `RomDisassembly::data_block_at`: register (or re-find) a data block and
return its bytes.  `none` models the source's panics (failed `unwrap`s and
the `assert!(data_end <= next_begin)`). -/
def dataBlockAt (st : RomDisassemblyState) (db : DataBlock) :
    Option (RomDisassemblyState × Except RomDataError (List Nat)) :=
  if st.cachedDataBlocks.contains db then some (st, sliceLorom st.rom db.slice)
  else
    match addrPcTryFromLorom db.slice.first with
    | .error _ => none
    | .ok addr =>
      match dbScanLoop db addr 0 st.chunks with
      | none => none
      | some none => some (st, .error (.dataBlockNotFound db))
      | some (some .notFoundErr) => some (st, .error (.dataBlockNotFound db))
      | some (some (.foundSplit split)) =>
        match split with
        | .noSplit =>
          let st2 := { st with cachedDataBlocks := db :: st.cachedDataBlocks }
          some (st2, sliceLorom st2.rom db.slice)
        | .start i =>
          match st.chunks.get? i with
          | none => none
          | some c =>
            let chunks1 := st.chunks.set i (c.1 + db.slice.size, c.2)
            let chunks2 := listInsertAt chunks1 i (addr, .data db)
            let st2 := { st with
                         chunks := chunks2,
                         cachedDataBlocks := db :: st.cachedDataBlocks }
            some (st2, sliceLorom st2.rom db.slice)
        | .middle i =>
          let dataEnd := addr + db.slice.size
          match st.chunks.get? (i + 1) with
          | none => none
          | some cNext =>
            if dataEnd ≤ cNext.1 then
              let chunks1 := listInsertAt st.chunks (i + 1) (addr, .data db)
              let chunks2 :=
                if dataEnd < cNext.1 then listInsertAt chunks1 (i + 2) (dataEnd, .unknown)
                else chunks1
              let st2 := { st with
                           chunks := chunks2,
                           cachedDataBlocks := db :: st.cachedDataBlocks }
              some (st2, sliceLorom st2.rom db.slice)
            else none

/-! ## Claim theorems -/

/-- Folding a sequence of `enqueue_basic_block` requests, returning the final
state together with the accepted (actually pushed) steps. -/
def foldEnqueue (st : RomAssemblyWalkerState) :
    List StepBasicBlock → RomAssemblyWalkerState × List StepBasicBlock
  | [] => (st, [])
  | s :: ss =>
    let r := enqueueBasicBlock st s
    let rest := foldEnqueue r.1 ss
    if r.2 then (rest.1, s :: rest.2) else rest

theorem enqueueBasicBlock_mem_after (st : RomAssemblyWalkerState) (s : StepBasicBlock) :
    s.codeStart ∈ (enqueueBasicBlock st s).1.analysedCodeStarts := by
  rw [enqueueBasicBlock]
  split
  · assumption
  · exact List.mem_cons_self _ _

theorem enqueueBasicBlock_mono (st : RomAssemblyWalkerState) (s : StepBasicBlock) (x : Nat)
    (hx : x ∈ st.analysedCodeStarts) :
    x ∈ (enqueueBasicBlock st s).1.analysedCodeStarts := by
  rw [enqueueBasicBlock]
  split
  · exact hx
  · exact List.mem_cons_of_mem _ hx

theorem enqueueBasicBlock_accepted_iff (st : RomAssemblyWalkerState) (s : StepBasicBlock) :
    (enqueueBasicBlock st s).2 = true ↔ s.codeStart ∉ st.analysedCodeStarts := by
  rw [enqueueBasicBlock]
  split <;> simp_all

theorem foldEnqueue_accepted_fresh (st : RomAssemblyWalkerState) :
    ∀ steps : List StepBasicBlock,
      ((foldEnqueue st steps).2.map (·.codeStart)).Nodup ∧
      (∀ s ∈ (foldEnqueue st steps).2, s.codeStart ∉ st.analysedCodeStarts) ∧
      (∀ x ∈ st.analysedCodeStarts, x ∈ (foldEnqueue st steps).1.analysedCodeStarts) ∧
      (∀ s ∈ (foldEnqueue st steps).2,
        s.codeStart ∈ (foldEnqueue st steps).1.analysedCodeStarts)
  | [] => by
    constructor
    · simp [foldEnqueue]
    constructor
    · simp [foldEnqueue]
    constructor
    · intro x hx
      simpa [foldEnqueue] using hx
    · simp [foldEnqueue]
  | s :: ss => by
    have ih := foldEnqueue_accepted_fresh (enqueueBasicBlock st s).1 ss
    rw [foldEnqueue]
    rcases hacc : (enqueueBasicBlock st s).2 with _ | _
    · simp only [hacc, Bool.false_eq_true, if_false]
      refine ⟨ih.1, ?_, ?_, ih.2.2.2⟩
      · intro t ht
        have hnotin := ih.2.1 t ht
        intro hmem
        exact hnotin (enqueueBasicBlock_mono st s _ hmem)
      · intro x hx
        exact ih.2.2.1 x (enqueueBasicBlock_mono st s x hx)
    · simp only [hacc, if_true]
      have hfresh : s.codeStart ∉ st.analysedCodeStarts :=
        (enqueueBasicBlock_accepted_iff st s).mp hacc
    
      refine ⟨?_, ?_, ?_, ?_⟩
      · refine List.Nodup.cons ?_ ih.1
        intro hmem
        simp only [List.mem_map] at hmem
        obtain ⟨t, ht, hts⟩ := hmem
        have := ih.2.1 t ht
        rw [hts] at this
        exact this (enqueueBasicBlock_mem_after st s)
      · intro t ht
        rcases List.mem_cons.mp ht with h | h
        · rw [h]; exact hfresh
        · intro hmem
          exact ih.2.1 t h (enqueueBasicBlock_mono st s _ hmem)
      · intro x hx
        exact ih.2.2.1 x (enqueueBasicBlock_mono st s x hx)
      · intro t ht
        rcases List.mem_cons.mp ht with h | h
        · rw [h]
          exact ih.2.2.1 _ (enqueueBasicBlock_mem_after st s)
        · exact ih.2.2.2 t h

theorem splitBlockAt_marks_middle (st : RomAssemblyWalkerState)
    (rangeStart rangeEnd rangeVecIdx middleStart entrance : Nat)
    (st2 : RomAssemblyWalkerState) (idx : Nat)
    (h : splitBlockAt st rangeStart rangeEnd rangeVecIdx middleStart entrance = some (st2, idx)) :
    middleStart ∈ st2.analysedCodeStarts := by
  rw [splitBlockAt] at h
  dsimp only at h
  repeat' split at h
  all_goals
    try simp only [Option.some.injEq, Prod.mk.injEq] at h
  all_goals
    first
    | exact Option.noConfusion h
    | (obtain ⟨hst2, _⟩ := h
       subst hst2
       simp_all)

/-- C10: throughout one analysis run a BasicBlock step for a given start
address is enqueued at most once — `enqueue_basic_block` pushes a step only
when its `code_start` is newly inserted into `analysed_code_starts` (over any
sequence of requests the accepted steps have pairwise distinct start
addresses, none of which was already analysed, and all of which are marked
analysed afterwards), and `split_block_at` also marks the split point as
analysed. -/
theorem enqueue_basic_block_at_most_once :
    (∀ (st : RomAssemblyWalkerState) (s : StepBasicBlock),
      (enqueueBasicBlock st s).2 = true ↔ s.codeStart ∉ st.analysedCodeStarts) ∧
    (∀ (st : RomAssemblyWalkerState) (steps : List StepBasicBlock),
      ((foldEnqueue st steps).2.map (·.codeStart)).Nodup ∧
      (∀ s ∈ (foldEnqueue st steps).2, s.codeStart ∉ st.analysedCodeStarts) ∧
      (∀ s ∈ (foldEnqueue st steps).2,
        s.codeStart ∈ (foldEnqueue st steps).1.analysedCodeStarts)) ∧
    (∀ (st : RomAssemblyWalkerState) (rangeStart rangeEnd rangeVecIdx middleStart entrance : Nat)
      (st2 : RomAssemblyWalkerState) (idx : Nat),
      splitBlockAt st rangeStart rangeEnd rangeVecIdx middleStart entrance = some (st2, idx) →
      middleStart ∈ st2.analysedCodeStarts) :=
  ⟨enqueueBasicBlock_accepted_iff,
   fun st steps =>
    ⟨(foldEnqueue_accepted_fresh st steps).1,
     (foldEnqueue_accepted_fresh st steps).2.1,
     (foldEnqueue_accepted_fresh st steps).2.2.2⟩,
   splitBlockAt_marks_middle⟩

/-- A non-control-flow instruction with the given offset and size (used by
concrete walker runs below). -/
def instrPlain (off sz : Nat) : Instruction :=
  ⟨off, sz, false, false, false, false, false, false, false, [], 0, 0⟩

/-- A branch/jump instruction with the given successor addresses. -/
def instrBranch (off sz : Nat) (targets : List Nat) : Instruction :=
  { instrPlain off sz with canChangePc := true, nextInstructions := targets }

/-- A subroutine-return instruction. -/
def instrReturn (off sz : Nat) : Instruction :=
  { instrPlain off sz with canChangePc := true, isSubroutineReturn := true }

/-- A subroutine-call instruction with the given successor addresses. -/
def instrCall (off sz : Nat) (targets : List Nat) : Instruction :=
  { instrPlain off sz with
    canChangePc := true
    isSubroutineCall := true
    nextInstructions := targets }

/-- A jump-table dispatch instruction. -/
def instrJumpTableDispatch (off sz : Nat) : Instruction :=
  { instrPlain off sz with canChangePc := true, usesJumpTable := true }

/-- A two-instruction code block used for the concrete split runs. -/
def c10Block : CodeBlock :=
  ⟨[instrPlain 0 2, instrReturn 2 1], [], [0x8000], Processor.new, Processor.new⟩

/-- A walker state holding `c10Block` as its only chunk. -/
def c10State : RomAssemblyWalkerState :=
  ⟨[0, 0, 0], fun _ _ => none, [], [], [(0, .code c10Block)], [(3, 0, 0)], [], [], [], []⟩

/-- C10 witness: a concrete `split_block_at` run marks the split point as an
analysed code start. -/
theorem enqueue_basic_block_at_most_once_witness :
    ∃ r, splitBlockAt c10State 0 3 0 2 0x8000 = some r ∧ 2 ∈ r.1.analysedCodeStarts := by
  obtain ⟨r, hr⟩ : ∃ r, splitBlockAt c10State 0 3 0 2 0x8000 = some r := ⟨_, rfl⟩
  exact ⟨r, hr, enqueue_basic_block_at_most_once.2.2 c10State 0 3 0 2 0x8000 r.1 r.2 hr⟩

/-- On an offset-sorted instruction list, filtering by `offset < m` is the
prefix before the first instruction at or past `m`. -/
theorem filter_lt_eq_takeWhile (m : Nat) :
    ∀ l : List Instruction, l.Pairwise (fun a b => a.offset < b.offset) →
      l.filter (fun i => decide (i.offset < m)) = l.takeWhile (fun i => decide (i.offset < m))
  | [], _ => rfl
  | x :: xs, h => by
    rw [List.pairwise_cons] at h
    by_cases hx : x.offset < m
    · simp [List.filter_cons, List.takeWhile_cons, hx, filter_lt_eq_takeWhile m xs h.2]
    · simp only [List.filter_cons, List.takeWhile_cons, hx]
      simp only [decide_eq_true_eq, if_neg hx]
      exact List.filter_eq_nil_iff.mpr fun y hy => by
        have := h.1 y hy
        simp only [decide_eq_true_eq]
        omega

/-- On an offset-sorted instruction list, filtering by `¬ offset < m` is the
suffix from the first instruction at or past `m`. -/
theorem filter_not_lt_eq_dropWhile (m : Nat) :
    ∀ l : List Instruction, l.Pairwise (fun a b => a.offset < b.offset) →
      l.filter (fun i => decide ¬(i.offset < m)) = l.dropWhile (fun i => decide (i.offset < m))
  | [], _ => rfl
  | x :: xs, h => by
    rw [List.pairwise_cons] at h
    have ih := filter_not_lt_eq_dropWhile m xs h.2
    by_cases hx : x.offset < m
    · simpa [List.filter_cons, List.dropWhile_cons, hx] using ih
    · have hall : ∀ y ∈ xs, m ≤ y.offset := fun y hy => by
        have := h.1 y hy
        omega
      have hfx : List.filter (fun i => decide ¬(i.offset < m)) xs = xs :=
        List.filter_eq_self.mpr fun y hy => by
          simp [Nat.not_lt.mpr (hall y hy)]
      simp only [List.filter_cons, List.dropWhile_cons] at *
      simp [hx] at *
      simpa [hx] using hfx

/-- Forward characterization of a successful `split_block_at`. -/
theorem splitBlockAt_spec (st : RomAssemblyWalkerState)
    (rangeStart rangeEnd rangeVecIdx middleStart entrance : Nat) (cb : CodeBlock)
    (ms lastSnes : Nat) (lastI : Instruction) (firstB secondB : CodeBlock)
    (hchunk : st.chunks.get? rangeVecIdx = some (rangeStart, .code cb))
    (hms : addrSnesTryFromLorom middleStart = .ok ms)
    (hlast : (cb.instructions.filter (fun i => decide (i.offset < middleStart))).getLast?
      = some lastI)
    (hls : addrSnesTryFromLorom lastI.offset = .ok lastSnes)
    (hfb : firstB = CodeBlock.recalculateFinal
      ⟨cb.instructions.filter (fun i => decide (i.offset < middleStart)), [ms], cb.entrances,
        cb.entryProcessorState, Processor.new⟩)
    (hsb : secondB = ⟨cb.instructions.filter (fun i => decide ¬(i.offset < middleStart)),
      cb.exits, [entrance, lastSnes], firstB.finalProcessorState, cb.finalProcessorState⟩) :
    splitBlockAt st rangeStart rangeEnd rangeVecIdx middleStart entrance =
      some ({ st with
              chunks := st.chunks.set rangeVecIdx (middleStart, .code secondB) ++
                [(rangeStart, .code firstB)],
              analysedChunks := btreeInsert
                (btreeInsert (btreeRemove st.analysedChunks rangeEnd) rangeEnd
                  (middleStart, rangeVecIdx))
                middleStart (rangeStart, st.chunks.length),
              analysedCodeStarts :=
                if middleStart ∈ st.analysedCodeStarts then st.analysedCodeStarts
                else middleStart :: st.analysedCodeStarts },
            st.chunks.length) := by
  subst hfb
  subst hsb
  rw [splitBlockAt, hchunk]
  simp only [BinaryBlock.codeBlock]
  rw [if_neg (by simp), hms, hlast]
  simp only [Except.toOption]
  rw [hls]
  simp only [Except.toOption]
  simp [List.length_set]

/-- C5: splitting a code chunk at an interior address `m` partitions its
instruction list at the first instruction whose offset is `≥ m`;
concatenating the halves reproduces the original sequence exactly; the first
half keeps the original entrances and gets the single exit `m` (as a logical
address); the second half keeps the original exits and gets the splitting
entrance plus the first half's last instruction address as entrances; the
first half's final flag state is recomputed by replaying its instructions
from its original entry state and becomes the second half's entry state. -/
theorem split_block_at_partition (st : RomAssemblyWalkerState)
    (rangeStart rangeEnd rangeVecIdx middleStart entrance : Nat) (cb : CodeBlock)
    (ms lastSnes : Nat) (lastI : Instruction)
    (hchunk : st.chunks.get? rangeVecIdx = some (rangeStart, .code cb))
    (hsorted : cb.instructions.Pairwise (fun a b => a.offset < b.offset))
    (hms : addrSnesTryFromLorom middleStart = .ok ms)
    (hlast : (cb.instructions.filter (fun i => decide (i.offset < middleStart))).getLast?
      = some lastI)
    (hls : addrSnesTryFromLorom lastI.offset = .ok lastSnes) :
    ∃ (st2 : RomAssemblyWalkerState) (idx : Nat) (firstB secondB : CodeBlock),
      splitBlockAt st rangeStart rangeEnd rangeVecIdx middleStart entrance = some (st2, idx) ∧
      st2.chunks.get? idx = some (rangeStart, .code firstB) ∧
      st2.chunks.get? rangeVecIdx = some (middleStart, .code secondB) ∧
      firstB.instructions = cb.instructions.takeWhile (fun i => decide (i.offset < middleStart)) ∧
      secondB.instructions = cb.instructions.dropWhile (fun i => decide (i.offset < middleStart)) ∧
      firstB.instructions ++ secondB.instructions = cb.instructions ∧
      firstB.entrances = cb.entrances ∧
      firstB.exits = [ms] ∧
      secondB.exits = cb.exits ∧
      firstB.instructions.getLast? = some lastI ∧
      secondB.entrances = [entrance, lastSnes] ∧
      firstB.entryProcessorState = cb.entryProcessorState ∧
      firstB.finalProcessorState =
        firstB.instructions.foldl (fun p i => i.applyTo p) cb.entryProcessorState ∧
      secondB.entryProcessorState = firstB.finalProcessorState ∧
      secondB.finalProcessorState = cb.finalProcessorState := by
  have hidx : rangeVecIdx < st.chunks.length := by
    by_contra hge
    rw [List.get?_eq_getElem?, List.getElem?_eq_none (by omega)] at hchunk
    exact Option.noConfusion hchunk
  refine ⟨_, _,
    CodeBlock.recalculateFinal
      ⟨cb.instructions.filter (fun i => decide (i.offset < middleStart)), [ms], cb.entrances,
        cb.entryProcessorState, Processor.new⟩,
    ⟨cb.instructions.filter (fun i => decide ¬(i.offset < middleStart)), cb.exits,
      [entrance, lastSnes],
      (CodeBlock.recalculateFinal
        ⟨cb.instructions.filter (fun i => decide (i.offset < middleStart)), [ms], cb.entrances,
          cb.entryProcessorState, Processor.new⟩).finalProcessorState,
      cb.finalProcessorState⟩,
    splitBlockAt_spec st rangeStart rangeEnd rangeVecIdx middleStart entrance cb ms lastSnes
      lastI _ _ hchunk hms hlast hls rfl rfl,
    ?_, ?_, ?_, ?_, ?_, ?_, ?_, ?_, ?_, ?_, ?_, ?_, ?_, ?_⟩
  · simp only
    rw [List.get?_eq_getElem?]
    have hlen : (st.chunks.set rangeVecIdx (middleStart, BinaryBlock.code
        ⟨cb.instructions.filter (fun i => decide ¬(i.offset < middleStart)), cb.exits,
          [entrance, lastSnes],
          (CodeBlock.recalculateFinal
            ⟨cb.instructions.filter (fun i => decide (i.offset < middleStart)), [ms],
              cb.entrances, cb.entryProcessorState, Processor.new⟩).finalProcessorState,
          cb.finalProcessorState⟩)).length = st.chunks.length := List.length_set _ _ _
    rw [← hlen]
    exact List.getElem?_concat_length _ _
  · simp only
    rw [List.get?_eq_getElem?, List.getElem?_append_left (by simpa using hidx),
      List.getElem?_set_self (by simpa using hidx)]
  · simp only [CodeBlock.recalculateFinal]
    exact filter_lt_eq_takeWhile middleStart cb.instructions hsorted
  · exact filter_not_lt_eq_dropWhile middleStart cb.instructions hsorted
  · simp only [CodeBlock.recalculateFinal]
    rw [filter_lt_eq_takeWhile middleStart cb.instructions hsorted,
      filter_not_lt_eq_dropWhile middleStart cb.instructions hsorted]
    exact List.takeWhile_append_dropWhile _ _
  · simp [CodeBlock.recalculateFinal]
  · simp [CodeBlock.recalculateFinal]
  · rfl
  · simpa [CodeBlock.recalculateFinal] using hlast
  · rfl
  · simp [CodeBlock.recalculateFinal]
  · simp [CodeBlock.recalculateFinal]
  · rfl
  · rfl

/-- A three-instruction block and state used as the concrete C5 witness. -/
def c5Block : CodeBlock :=
  ⟨[instrPlain 0 2, instrPlain 2 1, instrReturn 3 1], [0x8004], [0x8000],
    Processor.new, Processor.new⟩

def c5State : RomAssemblyWalkerState :=
  ⟨[0, 0, 0, 0], fun _ _ => none, [], [], [(0, .code c5Block)], [(4, 0, 0)], [], [], [], []⟩

/-- C5 witness: the split theorem applied to a concrete three-instruction
block at interior address 2. -/
theorem split_block_at_partition_witness :
    ∃ (st2 : RomAssemblyWalkerState) (idx : Nat) (firstB secondB : CodeBlock),
      splitBlockAt c5State 0 4 0 2 0x8000 = some (st2, idx) ∧
      st2.chunks.get? idx = some (0, .code firstB) ∧
      st2.chunks.get? 0 = some (2, .code secondB) ∧
      firstB.instructions = c5Block.instructions.takeWhile (fun i => decide (i.offset < 2)) ∧
      secondB.instructions = c5Block.instructions.dropWhile (fun i => decide (i.offset < 2)) ∧
      firstB.instructions ++ secondB.instructions = c5Block.instructions ∧
      firstB.entrances = c5Block.entrances ∧
      firstB.exits = [0x8002] ∧
      secondB.exits = c5Block.exits ∧
      firstB.instructions.getLast? = some (instrPlain 0 2) ∧
      secondB.entrances = [0x8000, 0x8000] ∧
      firstB.entryProcessorState = c5Block.entryProcessorState ∧
      firstB.finalProcessorState =
        firstB.instructions.foldl (fun p i => i.applyTo p) c5Block.entryProcessorState ∧
      secondB.entryProcessorState = firstB.finalProcessorState ∧
      secondB.finalProcessorState = c5Block.finalProcessorState :=
  split_block_at_partition c5State 0 4 0 2 0x8000 c5Block 0x8002 0x8000 (instrPlain 0 2)
    (by rfl) (by decide) (by decide) (by decide) (by decide)

/-! ## Cleanup invariants (C4) -/

theorem cleanupSortInsert_perm (x : Nat × BinaryBlock) :
    ∀ l : List (Nat × BinaryBlock), (cleanupSortInsert x l).Perm (x :: l)
  | [] => List.Perm.refl _
  | y :: ys => by
    rw [cleanupSortInsert]
    split
    · exact ((cleanupSortInsert_perm x ys).cons y).trans (List.Perm.swap x y ys)
    · exact List.Perm.refl _

theorem cleanupSort_fold_perm :
    ∀ (l acc : List (Nat × BinaryBlock)),
      (l.foldl (fun acc x => cleanupSortInsert x acc) acc).Perm (acc ++ l)
  | [], acc => by simp
  | x :: xs, acc => by
    rw [List.foldl_cons]
    refine (cleanupSort_fold_perm xs (cleanupSortInsert x acc)).trans ?_
    have h1 : (cleanupSortInsert x acc ++ xs).Perm ((x :: acc) ++ xs) :=
      (cleanupSortInsert_perm x acc).append_right xs
    refine h1.trans ?_
    have hm : (acc ++ x :: xs).Perm (x :: (acc ++ xs)) := List.perm_middle
    simpa using hm.symm

theorem cleanupSort_perm (l : List (Nat × BinaryBlock)) : (cleanupSort l).Perm l := by
  simpa using cleanupSort_fold_perm l []

theorem cleanupSortInsert_sorted (x : Nat × BinaryBlock) :
    ∀ l : List (Nat × BinaryBlock),
      l.Pairwise (fun a b => a.1 ≤ b.1) →
      (cleanupSortInsert x l).Pairwise (fun a b => a.1 ≤ b.1)
  | [], _ => by simp [cleanupSortInsert]
  | y :: ys, h => by
    rw [List.pairwise_cons] at h
    rw [cleanupSortInsert]
    split
    · rw [List.pairwise_cons]
      refine ⟨?_, cleanupSortInsert_sorted x ys h.2⟩
      intro z hz
      have hz2 := (cleanupSortInsert_perm x ys).mem_iff.mp hz
      rcases List.mem_cons.mp hz2 with h1 | h1
      · rw [h1]
        omega
      · exact h.1 z h1
    · rw [List.pairwise_cons]
      refine ⟨?_, List.pairwise_cons.mpr h⟩
      intro z hz
      rcases List.mem_cons.mp hz with h1 | h1
      · rw [h1]
        omega
      · have := h.1 z h1
        omega

theorem cleanupSort_fold_sorted :
    ∀ (l acc : List (Nat × BinaryBlock)),
      acc.Pairwise (fun a b => a.1 ≤ b.1) →
      (l.foldl (fun acc x => cleanupSortInsert x acc) acc).Pairwise (fun a b => a.1 ≤ b.1)
  | [], _, h => h
  | x :: xs, acc, h => by
    rw [List.foldl_cons]
    exact cleanupSort_fold_sorted xs _ (cleanupSortInsert_sorted x acc h)

theorem cleanupSort_sorted (l : List (Nat × BinaryBlock)) :
    (cleanupSort l).Pairwise (fun a b => a.1 ≤ b.1) :=
  cleanupSort_fold_sorted l [] (by simp)

/-- No two chunks at the same start address are both non-Unknown. -/
def NoConflict (l : List (Nat × BinaryBlock)) : Prop :=
  l.Pairwise (fun a b => a.1 = b.1 → a.2.isUnknown = true ∨ b.2.isUnknown = true)

theorem noConflict_symmetric :
    Symmetric (fun a b : Nat × BinaryBlock =>
      a.1 = b.1 → a.2.isUnknown = true ∨ b.2.isUnknown = true) := by
  intro a b hab hba
  rcases hab hba.symm with h | h
  · exact Or.inr h
  · exact Or.inl h

/-- The number of non-Unknown chunks at start address `s`. -/
def countNonUnknownAt (l : List (Nat × BinaryBlock)) (s : Nat) : Nat :=
  l.countP (fun e => e.1 == s && !e.2.isUnknown)

theorem countNonUnknownAt_perm {l l2 : List (Nat × BinaryBlock)} (h : l.Perm l2) (s : Nat) :
    countNonUnknownAt l s = countNonUnknownAt l2 s :=
  h.countP_eq _

theorem noConflict_count_le_one :
    ∀ l : List (Nat × BinaryBlock), NoConflict l → ∀ s, countNonUnknownAt l s ≤ 1
  | [], _, s => by simp [countNonUnknownAt]
  | a :: l, h, s => by
    rw [NoConflict, List.pairwise_cons] at h
    by_cases ha : a.1 = s ∧ a.2.isUnknown = false
    · have hzero : countNonUnknownAt l s = 0 := by
        rw [countNonUnknownAt, List.countP_eq_zero]
        intro b hb hbp
        simp only [Bool.and_eq_true, beq_iff_eq, Bool.not_eq_true'] at hbp
        obtain ⟨hb1, hb2⟩ := hbp
        rcases h.1 b hb (by rw [ha.1, hb1]) with hu | hu
        · rw [ha.2] at hu
          exact Bool.noConfusion hu
        · rw [hb2] at hu
          exact Bool.noConfusion hu
      rw [countNonUnknownAt, List.countP_cons]
      rw [countNonUnknownAt] at hzero
      simp [hzero, ha.1, ha.2]
    · have hcnt := noConflict_count_le_one l h.2 s
      rw [countNonUnknownAt, List.countP_cons]
      rw [countNonUnknownAt] at hcnt
      have hfalse : (a.1 == s && !a.2.isUnknown) = false := by
        by_cases hk : a.1 = s
        · cases hu : a.2.isUnknown
          · exact absurd ⟨hk, hu⟩ ha
          · simp [hu]
        · simp [hk]
      simp [hfalse]
      omega

/-- Full characterization of a successful same-start merge over a key-sorted
chunk list. -/
theorem dedupMerge_ok :
    ∀ (cur : Nat × BinaryBlock) (cs : List (Nat × BinaryBlock)),
      (cur :: cs).Pairwise (fun a b => a.1 ≤ b.1) →
      NoConflict (cur :: cs) →
      ∃ out, dedupMerge cur cs = .ok out ∧
        out.Pairwise (fun a b => a.1 < b.1) ∧
        (∃ hd, out.head? = some hd ∧ hd.1 = cur.1) ∧
        (∀ e ∈ out, e ∈ cur :: cs) ∧
        (∀ e ∈ cur :: cs, ∃ e2 ∈ out, e2.1 = e.1) ∧
        (∀ e ∈ out, e.2.isUnknown = true →
          ∀ e2 ∈ cur :: cs, e2.1 = e.1 → e2.2.isUnknown = true) ∧
        (∃ lastE, out.getLast? = some lastE ∧ ∀ e ∈ cur :: cs, e.1 ≤ lastE.1)
  | cur, [], _, _ => by
    refine ⟨[cur], rfl, by simp, ⟨cur, by simp⟩, by simp, by simp, ?_, ⟨cur, by simp⟩⟩
    intro e he hu e2 he2 hk
    simp only [List.mem_singleton] at he he2
    rw [he2, ← he]
    exact hu
  | cur, c :: cs, hs, hnc => by
    have hs0 := List.pairwise_cons.mp hs
    have hnc0 := List.pairwise_cons.mp hnc
    have hcurc : cur.1 ≤ c.1 := hs0.1 c (List.mem_cons_self c cs)
    rw [dedupMerge]
    by_cases hkey : c.1 = cur.1
    · rw [if_pos hkey]
      by_cases hcu : cur.2.isUnknown = true
      · rw [if_pos hcu]
        obtain ⟨out, heq, hsort, ⟨hd, hhd, hhdk⟩, hmem, hcov, hunk, lastE, hle, hlb⟩ :=
          dedupMerge_ok c cs hs0.2 hnc0.2
        refine ⟨out, heq, hsort, ⟨hd, hhd, by rw [hhdk, hkey]⟩, ?_, ?_, ?_, ⟨lastE, hle, ?_⟩⟩
        · intro e he
          exact List.mem_cons_of_mem cur (hmem e he)
        · intro e he
          rcases List.mem_cons.mp he with h1 | h1
          · obtain ⟨e2, he2, hk2⟩ := hcov c (List.mem_cons_self c cs)
            exact ⟨e2, he2, by rw [hk2, hkey, h1]⟩
          · exact hcov e h1
        · intro e he hu e2 he2 hk2
          rcases List.mem_cons.mp he2 with h1 | h1
          · rw [h1]
            exact hcu
          · exact hunk e he hu e2 h1 hk2
        · intro e he
          rcases List.mem_cons.mp he with h1 | h1
          · rw [h1, ← hkey]
            exact hlb c (List.mem_cons_self c cs)
          · exact hlb e h1
      · rw [if_neg hcu]
        by_cases hc2 : c.2.isUnknown = true
        · rw [if_pos hc2]
          have hsub : (cur :: cs).Sublist (cur :: c :: cs) :=
            (List.sublist_cons_self c cs).cons₂ cur
          obtain ⟨out, heq, hsort, ⟨hd, hhd, hhdk⟩, hmem, hcov, hunk, lastE, hle, hlb⟩ :=
            dedupMerge_ok cur cs (List.Pairwise.sublist hsub hs)
              (List.Pairwise.sublist hsub hnc)
          refine ⟨out, heq, hsort, ⟨hd, hhd, hhdk⟩, ?_, ?_, ?_, ⟨lastE, hle, ?_⟩⟩
          · intro e he
            rcases List.mem_cons.mp (hmem e he) with h1 | h1
            · rw [h1]
              exact List.mem_cons_self _ _
            · exact List.mem_cons_of_mem _ (List.mem_cons_of_mem _ h1)
          · intro e he
            rcases List.mem_cons.mp he with h1 | h1
            · exact hcov e (by rw [h1]; exact List.mem_cons_self _ _)
            · rcases List.mem_cons.mp h1 with h2 | h2
              · obtain ⟨e2, he2, hk2⟩ := hcov cur (List.mem_cons_self _ _)
                exact ⟨e2, he2, by rw [hk2, h2, hkey]⟩
              · exact hcov e (List.mem_cons_of_mem _ h2)
          · intro e he hu e2 he2 hk2
            rcases List.mem_cons.mp he2 with h1 | h1
            · exact hunk e he hu e2 (by rw [h1]; exact List.mem_cons_self _ _) hk2
            · rcases List.mem_cons.mp h1 with h2 | h2
              · rw [h2]
                exact hc2
              · exact hunk e he hu e2 (List.mem_cons_of_mem _ h2) hk2
          · intro e he
            rcases List.mem_cons.mp he with h1 | h1
            · exact hlb e (by rw [h1]; exact List.mem_cons_self _ _)
            · rcases List.mem_cons.mp h1 with h2 | h2
              · rw [h2, hkey]
                exact hlb cur (List.mem_cons_self _ _)
              · exact hlb e (List.mem_cons_of_mem _ h2)
        · exfalso
          rcases hnc0.1 c (List.mem_cons_self c cs) hkey.symm with h1 | h1
          · exact hcu h1
          · exact hc2 h1
    · rw [if_neg hkey]
      have hlt : cur.1 < c.1 := Nat.lt_of_le_of_ne hcurc (fun h => hkey h.symm)
      obtain ⟨out, heq, hsort, ⟨hd, hhd, hhdk⟩, hmem, hcov, hunk, lastE, hle, hlb⟩ :=
        dedupMerge_ok c cs hs0.2 hnc0.2
      rw [heq]
      have hkeyge : ∀ e ∈ c :: cs, c.1 ≤ e.1 := by
        intro e he
        rcases List.mem_cons.mp he with h1 | h1
        · rw [h1]
        · exact (List.pairwise_cons.mp hs0.2).1 e h1
      have houtne : out ≠ [] := by
        intro hcontra
        rw [hcontra] at hhd
        exact Option.noConfusion hhd
      refine ⟨cur :: out, rfl, ?_, ⟨cur, rfl, rfl⟩, ?_, ?_, ?_, ?_⟩
      · rw [List.pairwise_cons]
        refine ⟨?_, hsort⟩
        intro e he
        exact Nat.lt_of_lt_of_le hlt (hkeyge e (hmem e he))
      · intro e he
        rcases List.mem_cons.mp he with h1 | h1
        · rw [h1]
          exact List.mem_cons_self _ _
        · exact List.mem_cons_of_mem _ (hmem e h1)
      · intro e he
        rcases List.mem_cons.mp he with h1 | h1
        · exact ⟨cur, List.mem_cons_self _ _, by rw [h1]⟩
        · obtain ⟨e2, he2, hk2⟩ := hcov e h1
          exact ⟨e2, List.mem_cons_of_mem _ he2, hk2⟩
      · intro e he hu e2 he2 hk2
        rcases List.mem_cons.mp he with h1 | h1
        · rcases List.mem_cons.mp he2 with h2 | h2
          · rw [h2]
            rw [h1] at hu
            exact hu
          · exfalso
            have := hkeyge e2 h2
            rw [hk2, h1] at this
            omega
        · rcases List.mem_cons.mp he2 with h2 | h2
          · exfalso
            have := hkeyge e (hmem e h1)
            rw [h2] at hk2
            rw [hk2] at hlt
            omega
          · exact hunk e h1 hu e2 h2 hk2
      · refine ⟨lastE, ?_, ?_⟩
        · rcases out with _ | ⟨o1, os⟩
          · exact absurd rfl houtne
          · rw [List.getLast?_cons_cons]
            exact hle
        · intro e he
          rcases List.mem_cons.mp he with h1 | h1
          · rw [h1]
            exact Nat.le_trans (Nat.le_of_lt hlt) (hlb c (List.mem_cons_self _ _))
          · exact hlb e h1

/-- A failing same-start merge names an address carrying at least two
non-Unknown chunks. -/
theorem dedupMerge_error_count :
    ∀ (cur : Nat × BinaryBlock) (cs : List (Nat × BinaryBlock)) (s : Nat),
      dedupMerge cur cs = .error s → 2 ≤ countNonUnknownAt (cur :: cs) s
  | cur, [], s, h => by
    rw [dedupMerge] at h
    exact Except.noConfusion h
  | cur, c :: cs, s, h => by
    rw [dedupMerge] at h
    by_cases hkey : c.1 = cur.1
    · rw [if_pos hkey] at h
      by_cases hcu : cur.2.isUnknown = true
      · rw [if_pos hcu] at h
        have hrec := dedupMerge_error_count c cs s h
        simp only [countNonUnknownAt, List.countP_cons] at hrec ⊢
        omega
      · rw [if_neg hcu] at h
        by_cases hc2 : c.2.isUnknown = true
        · rw [if_pos hc2] at h
          have hrec := dedupMerge_error_count cur cs s h
          simp only [countNonUnknownAt, List.countP_cons] at hrec ⊢
          omega
        · rw [if_neg hc2] at h
          have hseq : s = cur.1 := (Except.error.inj h).symm
          simp only [countNonUnknownAt, List.countP_cons]
          have h1 : (cur.1 == s && !cur.2.isUnknown) = true := by
            simp [hseq, Bool.not_eq_true', Bool.eq_false_iff, hcu]
          have h2 : (c.1 == s && !c.2.isUnknown) = true := by
            simp [hseq, hkey, Bool.not_eq_true', Bool.eq_false_iff, hc2]
          simp only [h1, h2, if_true]
          omega
    · rw [if_neg hkey] at h
      rcases hinner : dedupMerge c cs with e | r
      · rw [hinner] at h
        have hse : e = s := Except.error.inj h
        rw [← hse] at h ⊢
        have hrec := dedupMerge_error_count c cs e hinner
        simp only [countNonUnknownAt, List.countP_cons] at hrec ⊢
        omega
      · rw [hinner] at h
        exact Except.noConfusion h

/-- A successful same-start merge certifies that no start address carried two
conflicting non-Unknown chunks, provided the input was key-sorted. -/
theorem dedupMerge_ok_noConflict :
    ∀ (cur : Nat × BinaryBlock) (cs : List (Nat × BinaryBlock))
      (out : List (Nat × BinaryBlock)),
      (cur :: cs).Pairwise (fun a b => a.1 ≤ b.1) →
      dedupMerge cur cs = .ok out → NoConflict (cur :: cs)
  | cur, [], out, _, _ => by
    rw [NoConflict]
    simp
  | cur, c :: cs, out, hs, h => by
    have hs0 := List.pairwise_cons.mp hs
    have hcurc : cur.1 ≤ c.1 := hs0.1 c (List.mem_cons_self c cs)
    rw [dedupMerge] at h
    by_cases hkey : c.1 = cur.1
    · rw [if_pos hkey] at h
      by_cases hcu : cur.2.isUnknown = true
      · rw [if_pos hcu] at h
        have ih := dedupMerge_ok_noConflict c cs out hs0.2 h
        rw [NoConflict, List.pairwise_cons]
        exact ⟨fun e _ _ => Or.inl hcu, ih⟩
      · rw [if_neg hcu] at h
        by_cases hc2 : c.2.isUnknown = true
        · rw [if_pos hc2] at h
          have hsub : (cur :: cs).Sublist (cur :: c :: cs) :=
            (List.sublist_cons_self c cs).cons₂ cur
          have ih := dedupMerge_ok_noConflict cur cs out
            (List.Pairwise.sublist hsub hs) h
          rw [NoConflict, List.pairwise_cons] at ih ⊢
          refine ⟨?_, ?_⟩
          · intro e he
            rcases List.mem_cons.mp he with h1 | h1
            · intro _
              exact Or.inr (by rw [h1]; exact hc2)
            · exact ih.1 e h1
          · rw [List.pairwise_cons]
            exact ⟨fun e _ _ => Or.inl hc2, ih.2⟩
        · rw [if_neg hc2] at h
          exact Except.noConfusion h
    · rw [if_neg hkey] at h
      have hlt : cur.1 < c.1 := Nat.lt_of_le_of_ne hcurc (fun hx => hkey hx.symm)
      rcases hinner : dedupMerge c cs with e | r
      · rw [hinner] at h
        exact Except.noConfusion h
      · rw [hinner] at h
        have ih := dedupMerge_ok_noConflict c cs r hs0.2 hinner
        rw [NoConflict, List.pairwise_cons]
        refine ⟨?_, ih⟩
        intro e he hke
        exfalso
        have : c.1 ≤ e.1 := by
          rcases List.mem_cons.mp he with h1 | h1
          · rw [h1]
          · exact (List.pairwise_cons.mp hs0.2).1 e h1
        omega

/-- The half-open ranges spanned by consecutive chunk starts. -/
def chunkRanges (l : List (Nat × BinaryBlock)) : List (Nat × Nat) :=
  (l.map Prod.fst).zip (l.map Prod.fst).tail

theorem chain_zip_bounds :
    ∀ (b : Nat) (rest : List Nat), List.Chain' (· < ·) (b :: rest) →
      ∀ r ∈ (b :: rest).zip rest, b ≤ r.1 ∧ r.1 < r.2
  | _, [], _, r, hr => by simp at hr
  | b, c :: rs, h, r, hr => by
    rw [List.chain'_cons] at h
    rcases List.mem_cons.mp hr with h1 | h1
    · rw [h1]
      exact ⟨Nat.le_refl b, h.1⟩
    · have := chain_zip_bounds c rs h.2 r h1
      exact ⟨Nat.le_trans (Nat.le_of_lt h.1) this.1, this.2⟩

theorem zip_ranges_disjoint :
    ∀ ks : List Nat, List.Chain' (· < ·) ks →
      (ks.zip ks.tail).Pairwise (fun r1 r2 => r1.2 ≤ r2.1)
  | [], _ => by simp
  | [_], _ => by simp
  | a :: b :: rest, h => by
    rw [List.chain'_cons] at h
    have htail := zip_ranges_disjoint (b :: rest) h.2
    simp only [List.tail_cons, List.zip_cons_cons]
    rw [List.pairwise_cons]
    refine ⟨?_, htail⟩
    intro r hr
    exact (chain_zip_bounds b rest h.2 r hr).1

theorem zip_ranges_cover :
    ∀ (ks : List Nat) (a L x : Nat), List.Chain' (· < ·) ks →
      ks.head? = some a → ks.getLast? = some L →
      ((∃ r ∈ ks.zip ks.tail, r.1 ≤ x ∧ x < r.2) ↔ (a ≤ x ∧ x < L))
  | [], a, L, x, _, hh, _ => by exact Option.noConfusion hh
  | [k], a, L, x, _, hh, hl => by
    simp only [List.head?_cons, Option.some.injEq] at hh
    simp only [List.getLast?_singleton, Option.some.injEq] at hl
    simp [← hh, ← hl]
  | a0 :: b :: rest, a, L, x, h, hh, hl => by
    simp only [List.head?_cons, Option.some.injEq] at hh
    rw [List.chain'_cons] at h
    rw [List.getLast?_cons_cons] at hl
    have ih := zip_ranges_cover (b :: rest) b L x h.2 rfl hl
    have hbL : b ≤ L := by
      have hmem := List.mem_of_getLast?_eq_some hl
      rcases List.mem_cons.mp hmem with h1 | h1
      · omega
      · have hpw := List.chain'_iff_pairwise.mp h.2
        exact Nat.le_of_lt ((List.pairwise_cons.mp hpw).1 L h1)
    subst hh
    constructor
    · rintro ⟨r, hr, hx1, hx2⟩
      simp only [List.tail_cons, List.zip_cons_cons] at hr
      rcases List.mem_cons.mp hr with h1 | h1
      · rw [h1] at hx1 hx2
        simp only at hx1 hx2
        omega
      · have := ih.mp ⟨r, h1, hx1, hx2⟩
        have hab := h.1
        omega
    · rintro ⟨hx1, hx2⟩
      simp only [List.tail_cons, List.zip_cons_cons]
      by_cases hxb : x < b
      · exact ⟨(a0, b), List.mem_cons_self _ _, hx1, hxb⟩
      · obtain ⟨r, hr, hrx⟩ := ih.mpr ⟨by omega, hx2⟩
        exact ⟨r, List.mem_cons_of_mem _ hr, hrx⟩

/-- Success half of the cleanup claim: under the walker's invariants the
finished chunk store is strictly sorted, starts at 0, ends with the EndOfRom
sentinel at the image length, and its consecutive ranges exactly partition
`[0, image length)`. -/
theorem cleanup_partition_invariant (chunks : List (Nat × BinaryBlock)) (romLen : Nat)
    (hlen : ∀ e ∈ chunks, e.1 ≤ romLen)
    (hzero : ∃ b, (0, b) ∈ chunks)
    (hlt : ∀ e ∈ chunks, e.2.isUnknown = false → e.1 < romLen)
    (hnc : NoConflict chunks) :
    ∃ out, cleanup chunks romLen = .ok out ∧
      out.Pairwise (fun a b => a.1 < b.1) ∧
      (out.head?.map Prod.fst) = some 0 ∧
      out.getLast? = some (romLen, .endOfRom) ∧
      (chunkRanges out).Pairwise (fun r1 r2 => r1.2 ≤ r2.1) ∧
      (∀ x, (∃ r ∈ chunkRanges out, r.1 ≤ x ∧ x < r.2) ↔ x < romLen) := by
  set full := chunks ++ [(romLen, BinaryBlock.endOfRom)] with hfull
  have hncfull : NoConflict full := by
    rw [NoConflict, hfull, List.pairwise_append]
    refine ⟨hnc, by simp, ?_⟩
    intro a ha b hb
    simp only [List.mem_singleton] at hb
    subst hb
    intro hk
    cases hu : a.2.isUnknown
    · exfalso
      have := hlt a ha hu
      simp only at hk
      omega
    · exact Or.inl rfl
  have hperm : (cleanupSort full).Perm full := cleanupSort_perm full
  have hsorted := cleanupSort_sorted full
  have hsymm : ∀ {x y : Nat × BinaryBlock},
      (x.1 = y.1 → x.2.isUnknown = true ∨ y.2.isUnknown = true) →
      (y.1 = x.1 → y.2.isUnknown = true ∨ x.2.isUnknown = true) :=
    fun h hk => (h hk.symm).symm
  have hncsorted : NoConflict (cleanupSort full) := by
    rw [NoConflict]
    rw [NoConflict] at hncfull
    exact (hperm.pairwise_iff hsymm).mpr hncfull
  have hne : cleanupSort full ≠ [] := by
    intro hc
    have hl := hperm.length_eq
    rw [hc, hfull] at hl
    simp at hl
  rcases hcs : cleanupSort full with _ | ⟨c, cs⟩
  · exact absurd hcs hne
  rw [hcs] at hperm hsorted hncsorted
  obtain ⟨out, heq, hsort, ⟨hd, hhd, hhdk⟩, hmem, hcov, hunk, lastE, hle2, hlb⟩ :=
    dedupMerge_ok c cs hsorted hncsorted
  have hcleanup : cleanup chunks romLen = .ok out := by
    rw [cleanup, ← hfull, hcs]
    exact heq
  have hmemfull : ∀ e ∈ out, e ∈ full := fun e he => hperm.mem_iff.mp (hmem e he)
  have hmemrev : ∀ e ∈ full, e ∈ c :: cs := fun e he => hperm.mem_iff.mpr he
  obtain ⟨b0, hb0⟩ := hzero
  have hb0sorted : (0, b0) ∈ c :: cs := hmemrev _ (by rw [hfull]; exact List.mem_append_left _ hb0)
  have hc0 : c.1 = 0 := by
    rcases List.mem_cons.mp hb0sorted with h1 | h1
    · rw [← h1]
    · have := (List.pairwise_cons.mp hsorted).1 _ h1
      simp only at this
      omega
  have hlastout : lastE ∈ out := List.mem_of_getLast?_eq_some hle2
  have hlastfull : lastE ∈ full := hmemfull _ hlastout
  have hsentin : (romLen, BinaryBlock.endOfRom) ∈ c :: cs :=
    hmemrev _ (by rw [hfull]; exact List.mem_append_right _ (List.mem_singleton_self _))
  have hlkey : lastE.1 = romLen := by
    have h1 : romLen ≤ lastE.1 := hlb _ hsentin
    have h2 : lastE.1 ≤ romLen := by
      rw [hfull] at hlastfull
      rcases List.mem_append.mp hlastfull with h | h
      · exact hlen _ h
      · simp only [List.mem_singleton] at h
        rw [h]
    omega
  have hlval : lastE = (romLen, BinaryBlock.endOfRom) := by
    rw [hfull] at hlastfull
    rcases List.mem_append.mp hlastfull with h | h
    · cases hu : lastE.2.isUnknown
      · exfalso
        have := hlt _ h hu
        omega
      · exfalso
        have hsent := hunk lastE hlastout hu (romLen, .endOfRom) hsentin (by rw [hlkey])
        simp [BinaryBlock.isUnknown] at hsent
    · simpa using h
  have hkchain : List.Chain' (· < ·) (out.map Prod.fst) :=
    List.Pairwise.chain' (List.pairwise_map.mpr hsort)
  have hkhead : (out.map Prod.fst).head? = some 0 := by
    rw [List.head?_map, hhd]
    simp [hhdk, hc0]
  have hklast : (out.map Prod.fst).getLast? = some romLen := by
    rw [List.getLast?_map, hle2]
    simp [hlval]
  refine ⟨out, hcleanup, hsort, ?_, ?_, ?_, ?_⟩
  · rw [hhd]
    simp [hhdk, hc0]
  · rw [hle2, hlval]
  · exact zip_ranges_disjoint _ hkchain
  · intro x
    have := zip_ranges_cover (out.map Prod.fst) 0 romLen x hkchain hkhead hklast
    rw [chunkRanges]
    rw [this]
    omega

/-- Abort half of the cleanup claim: if some start address carries two
non-Unknown chunks, cleanup fails with a diagnostic carrying such an
address. -/
theorem cleanup_conflict_aborts (chunks : List (Nat × BinaryBlock)) (romLen : Nat)
    (hconf : ∃ s, 2 ≤ countNonUnknownAt (chunks ++ [(romLen, .endOfRom)]) s) :
    ∃ s, cleanup chunks romLen = .error s ∧
      2 ≤ countNonUnknownAt (chunks ++ [(romLen, .endOfRom)]) s := by
  set full := chunks ++ [(romLen, BinaryBlock.endOfRom)] with hfull
  have hperm : (cleanupSort full).Perm full := cleanupSort_perm full
  have hsorted := cleanupSort_sorted full
  have hne : cleanupSort full ≠ [] := by
    intro hc
    have hl := hperm.length_eq
    rw [hc, hfull] at hl
    simp at hl
  rcases hcs : cleanupSort full with _ | ⟨c, cs⟩
  · exact absurd hcs hne
  rw [hcs] at hperm hsorted
  rcases hres : dedupMerge c cs with e | r
  · refine ⟨e, ?_, ?_⟩
    · rw [cleanup, ← hfull, hcs]
      exact hres
    · have := dedupMerge_error_count c cs e hres
      rw [← countNonUnknownAt_perm hperm e]
      exact this
  · exfalso
    obtain ⟨s, hs⟩ := hconf
    have hncs := dedupMerge_ok_noConflict c cs r hsorted hres
    have hcnt := noConflict_count_le_one (c :: cs) hncs s
    rw [countNonUnknownAt_perm hperm s] at hcnt
    omega

/-- C4: after cleanup at the end of analysis, the chunk store is terminated
by an EndOfRom sentinel at the image length and is sorted by start address
with same-start duplicates merged preferring non-Unknown over Unknown, so
that the ranges spanned by consecutive starts are pairwise disjoint and
cover exactly `[0, image length)`; and if two conflicting non-Unknown chunks
share a start address, cleanup aborts with a diagnostic naming such an
address. -/
theorem cleanup_sorted_disjoint_cover :
    (∀ (chunks : List (Nat × BinaryBlock)) (romLen : Nat),
      (∀ e ∈ chunks, e.1 ≤ romLen) →
      (∃ b, (0, b) ∈ chunks) →
      (∀ e ∈ chunks, e.2.isUnknown = false → e.1 < romLen) →
      NoConflict chunks →
      ∃ out, cleanup chunks romLen = .ok out ∧
        out.Pairwise (fun a b => a.1 < b.1) ∧
        (out.head?.map Prod.fst) = some 0 ∧
        out.getLast? = some (romLen, .endOfRom) ∧
        (chunkRanges out).Pairwise (fun r1 r2 => r1.2 ≤ r2.1) ∧
        (∀ x, (∃ r ∈ chunkRanges out, r.1 ≤ x ∧ x < r.2) ↔ x < romLen)) ∧
    (∀ (chunks : List (Nat × BinaryBlock)) (romLen : Nat),
      (∃ s, 2 ≤ countNonUnknownAt (chunks ++ [(romLen, .endOfRom)]) s) →
      ∃ s, cleanup chunks romLen = .error s ∧
        2 ≤ countNonUnknownAt (chunks ++ [(romLen, .endOfRom)]) s) :=
  ⟨cleanup_partition_invariant, cleanup_conflict_aborts⟩

/-- C4 witness: a concrete two-chunk store cleans up to the full partition,
and a concrete store with two Code chunks at one address aborts. -/
theorem cleanup_sorted_disjoint_cover_witness :
    (∃ out, cleanup [(0, BinaryBlock.code c10Block), (2, BinaryBlock.unknown)] 3 = .ok out ∧
      out.Pairwise (fun a b => a.1 < b.1) ∧
      (out.head?.map Prod.fst) = some 0 ∧
      out.getLast? = some (3, .endOfRom) ∧
      (chunkRanges out).Pairwise (fun r1 r2 => r1.2 ≤ r2.1) ∧
      (∀ x, (∃ r ∈ chunkRanges out, r.1 ≤ x ∧ x < r.2) ↔ x < 3)) ∧
    (∃ s, cleanup [(0, BinaryBlock.code c10Block), (0, BinaryBlock.code c10Block)] 1
        = .error s ∧
      2 ≤ countNonUnknownAt
        ([(0, BinaryBlock.code c10Block), (0, BinaryBlock.code c10Block)] ++
          [(1, .endOfRom)]) s) :=
  ⟨cleanup_sorted_disjoint_cover.1 [(0, .code c10Block), (2, .unknown)] 3
      (by decide) ⟨.code c10Block, by simp⟩ (by decide)
      (by rw [NoConflict]; decide),
   cleanup_sorted_disjoint_cover.2 [(0, .code c10Block), (0, .code c10Block)] 1
      ⟨0, by decide⟩⟩

/-! ## Data registration (C3, C9) -/

theorem addrSnes_ok_of_lt (p : Nat) (hp : p < 0x400000) :
    ∃ v, addrSnesTryFromLorom p = .ok v := by
  rw [addrSnesTryFromLorom, if_pos (by simp [addrPcIsValidLorom, hp])]
  exact ⟨_, rfl⟩

/-- All chunks before position `i` of a strictly key-sorted list have smaller
keys. -/
theorem sorted_take_lt (l : List (Nat × BinaryBlock))
    (hs : l.Pairwise (fun a b => a.1 < b.1)) (i : Nat) (x : Nat × BinaryBlock)
    (hx : l.get? i = some x) : ∀ p ∈ l.take i, p.1 < x.1 := by
  intro p hp
  rw [List.mem_take_iff_getElem] at hp
  obtain ⟨j, hj, hjp⟩ := hp
  have hil : i < l.length := by
    by_contra hc
    rw [List.get?_eq_getElem?, List.getElem?_eq_none (by omega)] at hx
    exact Option.noConfusion hx
  have hxval : l[i] = x := by
    rw [List.get?_eq_getElem?, List.getElem?_eq_getElem hil] at hx
    exact Option.some.inj hx
  have := List.pairwise_iff_getElem.mp hs j i (by omega) hil (by omega)
  rw [hjp, hxval] at this
  exact this

/-- Decomposing a list at a known position. -/
theorem list_decompose_at (l : List (Nat × BinaryBlock)) (i : Nat) (x : Nat × BinaryBlock)
    (hx : l.get? i = some x) : l = l.take i ++ x :: l.drop (i + 1) := by
  have hil : i < l.length := by
    by_contra hc
    rw [List.get?_eq_getElem?, List.getElem?_eq_none (by omega)] at hx
    exact Option.noConfusion hx
  have hxval : l[i] = x := by
    rw [List.get?_eq_getElem?, List.getElem?_eq_getElem hil] at hx
    exact Option.some.inj hx
  rw [← hxval, List.getElem_cons_drop, List.take_append_drop]

/-- The window scan of `data_block_at` skips every leading chunk whose start
is below the requested address when the chunk at that address itself follows
directly after the leading chunks. -/
theorem dbScanLoop_reach (db : DataBlock) (addr : Nat) :
    ∀ (pre rest2 : List (Nat × BinaryBlock)) (blk : BinaryBlock) (k : Nat),
      (∀ p ∈ pre, p.1 < addr) →
      (∀ p ∈ pre, p.1 < 0x400000) →
      addr < 0x400000 →
      dbScanLoop db addr k (pre ++ (addr, blk) :: rest2) =
        dbScanLoop db addr (k + pre.length) ((addr, blk) :: rest2)
  | [], rest2, blk, k, _, _, _ => by simp
  | p :: ps, rest2, blk, k, hlt, hbnd, haddr => by
    have hplt : p.1 < addr := hlt p (List.mem_cons_self _ _)
    have ih := dbScanLoop_reach db addr ps rest2 blk (k + 1)
      (fun x hx => hlt x (List.mem_cons_of_mem _ hx))
      (fun x hx => hbnd x (List.mem_cons_of_mem _ hx)) haddr
    have hcmp : compare p.1 addr = .lt := by
      rw [Nat.compare_eq_lt]
      exact hplt
    rcases hps : ps with _ | ⟨q, qs⟩
    · subst hps
      simp only [List.nil_append] at ih ⊢
      rw [List.cons_append, List.nil_append, dbScanLoop]
      obtain ⟨v, hv⟩ := addrSnes_ok_of_lt addr haddr
      rw [hv, hcmp]
      rw [if_neg (by omega)]
      simp [ih]
    · subst hps
      have hqlt : q.1 < addr := hlt q (List.mem_cons_of_mem _ (List.mem_cons_self _ _))
      have hqbnd : q.1 < 0x400000 := hbnd q (List.mem_cons_of_mem _ (List.mem_cons_self _ _))
      rw [List.cons_append, List.cons_append, dbScanLoop]
      obtain ⟨v, hv⟩ := addrSnes_ok_of_lt q.1 hqbnd
      rw [hv, hcmp]
      rw [if_neg (by omega)]
      rw [List.cons_append] at ih
      rw [ih]
      have hk : k + 1 + (q :: qs).length = k + (p :: q :: qs).length := by
        simp
        omega
      rw [hk]

/-- C3 (amended): a data-block registration whose range starts exactly at an
existing Code chunk's start address fails with `DataBlockNotFound` and leaves
the chunk store (and the cache) unmodified.  (The claim's strictly-inside
case is refuted by `data_block_code_overlap_counterexample`: such a request
is placed as a middle split without any error.) -/
theorem data_block_code_start_rejected (st : RomDisassemblyState) (db : DataBlock)
    (i addr : Nat) (cb : CodeBlock)
    (hsorted : st.chunks.Pairwise (fun a b => a.1 < b.1))
    (hbound : ∀ e ∈ st.chunks, e.1 < 0x400000)
    (hcache : st.cachedDataBlocks.contains db = false)
    (haddr : addrPcTryFromLorom db.slice.first = .ok addr)
    (hchunk : st.chunks.get? i = some (addr, .code cb)) :
    dataBlockAt st db = some (st, .error (.dataBlockNotFound db)) := by
  have hdecomp := list_decompose_at st.chunks i (addr, .code cb) hchunk
  have hpre_lt : ∀ p ∈ st.chunks.take i, p.1 < addr := by
    intro p hp
    simpa using sorted_take_lt st.chunks hsorted i _ hchunk p hp
  have hpre_bnd : ∀ p ∈ st.chunks.take i, p.1 < 0x400000 :=
    fun p hp => hbound p (List.mem_of_mem_take hp)
  have haddr_bnd : addr < 0x400000 := by
    have := hbound _ (List.get?_mem hchunk)
    simpa using this
  have hreach := dbScanLoop_reach db addr (st.chunks.take i) (st.chunks.drop (i + 1))
    (.code cb) 0 hpre_lt hpre_bnd haddr_bnd
  have hscan : dbScanLoop db addr 0 st.chunks = some (some .notFoundErr) ∨
      dbScanLoop db addr 0 st.chunks = some none := by
    rcases hrest : st.chunks.drop (i + 1) with _ | ⟨r, rs⟩
    · right
      rw [hdecomp, hrest]
      rw [hrest] at hreach
      rw [hreach]
      rw [dbScanLoop]
    · left
      rw [hdecomp, hrest]
      rw [hrest] at hreach
      rw [hreach]
      have hrbnd : r.1 < 0x400000 := by
        have hrmem : r ∈ st.chunks.drop (i + 1) := by
          rw [hrest]
          exact List.mem_cons_self _ _
        exact hbound r (List.mem_of_mem_drop hrmem)
      obtain ⟨v, hv⟩ := addrSnes_ok_of_lt r.1 hrbnd
      rw [dbScanLoop, hv]
      have hcmp : compare addr addr = Ordering.eq := by
        rw [Nat.compare_eq_eq]
      rw [hcmp]
  have hnotmem : db ∉ st.cachedDataBlocks := by simpa using hcache
  rcases hscan with hscan | hscan <;>
    (simp [dataBlockAt, hcache, haddr, hscan]
     intro hmem
     exact absurd hmem hnotmem)

/-- A concrete store for the C3 counterexample: a single Code chunk covering
`[0, 10)` followed by the EndOfRom sentinel. -/
def c3Block : CodeBlock :=
  ⟨[instrPlain 0 4, instrReturn 4 6], [], [0x8000], Processor.new, Processor.new⟩

def c3State : RomDisassemblyState :=
  ⟨[0, 0, 0, 0, 0, 0, 0, 0, 0, 0], [(0, .code c3Block), (10, .endOfRom)], []⟩

def c3DataBlock : DataBlock := ⟨⟨0x8004, 2⟩, .notYetDetermined⟩

/-- C3 counterexample: registering a data block whose range starts strictly
inside an existing Code chunk does NOT fail — the store is silently split in
the middle of the code chunk, contradicting the claim that any overlap with
a Code chunk yields `DataBlockNotFound` with the store unmodified. -/
theorem data_block_code_overlap_counterexample :
    dataBlockAt c3State c3DataBlock =
      some (⟨c3State.rom,
             [(0, .code c3Block), (4, .data c3DataBlock), (6, .unknown), (10, .endOfRom)],
             [c3DataBlock]⟩,
            .ok [0, 0]) := by
  rfl

/-- C3 witness: the amended theorem applied to a concrete store where the
data block starts exactly at the Code chunk's start. -/
theorem data_block_code_start_rejected_witness :
    dataBlockAt c3State ⟨⟨0x8000, 2⟩, .notYetDetermined⟩ =
      some (c3State, .error (.dataBlockNotFound ⟨⟨0x8000, 2⟩, .notYetDetermined⟩)) :=
  data_block_code_start_rejected c3State ⟨⟨0x8000, 2⟩, .notYetDetermined⟩ 0 0 c3Block
    (by rw [c3State]; decide) (by decide) (by decide) (by decide) (by decide)

/-- C9 (amended): registering a data block whose range exactly matches an
existing Unknown chunk's full range reclassifies the range to Data, but a
zero-length Unknown chunk remains in the store at the next chunk's start
address (the Unknown entry's start is advanced by the block size instead of
the entry being removed); registering the same block again with identical
parameters is a no-op that leaves the store unchanged. -/
theorem data_block_exact_match_idempotent (st : RomDisassemblyState) (db : DataBlock)
    (i b e esnes : Nat) (blk2 : BinaryBlock)
    (hsorted : st.chunks.Pairwise (fun a b => a.1 < b.1))
    (hbound : ∀ x ∈ st.chunks, x.1 < 0x400000)
    (hcache : st.cachedDataBlocks.contains db = false)
    (haddr : addrPcTryFromLorom db.slice.first = .ok b)
    (hchunk : st.chunks.get? i = some (b, .unknown))
    (hnext : st.chunks.get? (i + 1) = some (e, blk2))
    (hexact : b + db.slice.size = e)
    (hesnes : addrSnesTryFromLorom e = .ok esnes)
    (hguard : db.slice.containsAddr esnes = false) :
    ∃ st2, dataBlockAt st db = some (st2, sliceLorom st.rom db.slice) ∧
      st2.chunks =
        st.chunks.take i ++ (b, .data db) :: (e, .unknown) :: st.chunks.drop (i + 1) ∧
      st2.cachedDataBlocks = db :: st.cachedDataBlocks ∧
      dataBlockAt st2 db = some (st2, sliceLorom st2.rom db.slice) := by
  have hil : i < st.chunks.length := by
    by_contra hc
    rw [List.get?_eq_getElem?, List.getElem?_eq_none (by omega)] at hchunk
    exact Option.noConfusion hchunk
  have hi1 : i + 1 < st.chunks.length := by
    by_contra hc
    rw [List.get?_eq_getElem?, List.getElem?_eq_none (by omega)] at hnext
    exact Option.noConfusion hnext
  have hdecomp := list_decompose_at st.chunks i (b, .unknown) hchunk
  have hdrop : st.chunks.drop (i + 1) = (e, blk2) :: st.chunks.drop (i + 2) := by
    have h1 := List.drop_eq_getElem_cons hi1
    have h2 : st.chunks[i + 1] = (e, blk2) := by
      rw [List.get?_eq_getElem?, List.getElem?_eq_getElem hi1] at hnext
      exact Option.some.inj hnext
    rw [h2] at h1
    exact h1
  have hpre_lt : ∀ p ∈ st.chunks.take i, p.1 < b := by
    intro p hp
    simpa using sorted_take_lt st.chunks hsorted i _ hchunk p hp
  have hpre_bnd : ∀ p ∈ st.chunks.take i, p.1 < 0x400000 :=
    fun p hp => hbound p (List.mem_of_mem_take hp)
  have hb_bnd : b < 0x400000 := by
    have := hbound _ (List.get?_mem hchunk)
    simpa using this
  have hscan : dbScanLoop db b 0 st.chunks = some (some (.foundSplit (.start i))) := by
    conv_lhs => rw [hdecomp, hdrop]
    have hreach := dbScanLoop_reach db b (st.chunks.take i)
      ((e, blk2) :: st.chunks.drop (i + 2)) .unknown 0 hpre_lt hpre_bnd hb_bnd
    rw [hreach]
    have hcmp : compare b b = Ordering.eq := by
      rw [Nat.compare_eq_eq]
    rw [dbScanLoop, hesnes, hcmp]
    have hlen : (st.chunks.take i).length = i := by
      simp [List.length_take]
      omega
    simp [hguard, hlen]
  have hnotmem : db ∉ st.cachedDataBlocks := by simpa using hcache
  have hchunks_eq :
      listInsertAt (st.chunks.set i (b + db.slice.size, BinaryBlock.unknown)) i
        (b, BinaryBlock.data db) =
      st.chunks.take i ++ (b, .data db) :: (e, .unknown) :: st.chunks.drop (i + 1) := by
    rw [hexact, List.set_eq_take_cons_drop _ hil, listInsertAt]
    rw [List.take_left' (by simp [List.length_take]; omega),
      List.drop_left' (by simp [List.length_take]; omega)]
    simp
  refine ⟨⟨st.rom,
    st.chunks.take i ++ (b, .data db) :: (e, .unknown) :: st.chunks.drop (i + 1),
    db :: st.cachedDataBlocks⟩, ?_, rfl, rfl, ?_⟩
  · simp only [dataBlockAt, haddr, hscan]
    rw [if_neg (by rw [hcache]; exact Bool.noConfusion)]
    simp only [hchunk]
    rw [← hchunks_eq]
  · simp [dataBlockAt]

def c9Db : DataBlock := ⟨⟨0x8000, 4⟩, .notYetDetermined⟩

def c9State : RomDisassemblyState :=
  ⟨[0, 0, 0, 0], [(0, .unknown), (4, .endOfRom)], []⟩

/-- C9 counterexample: registering a data block exactly matching an Unknown
chunk's full range leaves a zero-length Unknown chunk behind at the next
chunk's start (here `(4, unknown)` in front of the EndOfRom sentinel),
refuting the claim that no Unknown remainder chunk is left. -/
theorem data_block_exact_match_counterexample :
    dataBlockAt c9State c9Db =
      some (⟨[0, 0, 0, 0],
             [(0, .data c9Db), (4, .unknown), (4, .endOfRom)],
             [c9Db]⟩,
            .ok [0, 0, 0, 0]) ∧
    (4, BinaryBlock.unknown) ∈ [(0, BinaryBlock.data c9Db), (4, BinaryBlock.unknown),
      (4, BinaryBlock.endOfRom)] :=
  ⟨by rfl, by decide⟩

/-- C9 witness: the amended theorem applied to the concrete store above. -/
theorem data_block_exact_match_idempotent_witness :
    ∃ st2, dataBlockAt c9State c9Db = some (st2, sliceLorom c9State.rom c9Db.slice) ∧
      st2.chunks =
        c9State.chunks.take 0 ++ (0, .data c9Db) :: (4, .unknown) :: c9State.chunks.drop 1 ∧
      st2.cachedDataBlocks = c9Db :: c9State.cachedDataBlocks ∧
      dataBlockAt st2 c9Db = some (st2, sliceLorom st2.rom c9Db.slice) :=
  data_block_exact_match_idempotent c9State c9Db 0 0 4 0x8004 .endOfRom
    (by rw [c9State]; decide) (by decide) (by decide) (by decide) (by decide) (by decide)
    (by decide) (by decide) (by decide)

/-! ## Invalid successor addresses (C1) -/

/-- C1 (amended): if a decoded successor of a basic block maps to a linear
offset at or past the image length, the partially built block is still
committed to the chunk store as a Code chunk followed by an Unknown chunk at
the address after the block and `InvalidAddrInCodeBlock` is returned for that
path — but the error IS globally fatal: `full_analysis` propagates the first
error immediately (`?`), so the remaining worklist entries are left
unprocessed and cleanup does not run.  (The claim's assertion that the rest
of the worklist still drains is refuted by
`invalid_addr_fatal_counterexample`.) -/
theorem invalid_addr_commits_then_aborts :
    (∀ (st : RomAssemblyWalkerState) (step : StepBasicBlock) (cb0 : CodeBlock)
       (addrAfter : Nat) (proc : Processor) (last : Instruction) (t p : Nat),
      findAnalysedChunkAt st step.codeStart = .missing →
      codeBlockFromBytes st.decode step.codeStart st.rom.length step.processor
        = (cb0, addrAfter, proc) →
      cb0.instructions.getLast? = some last →
      last.canChangePc = true →
      last.usesJumpTable = false →
      last.isSubroutineCall = false →
      last.nextInstructions = [t] →
      addrPcTryFromLorom t = .ok p →
      st.rom.length ≤ p →
      analyseBasicBlock st step =
        some ({ st with
                chunks := st.chunks ++
                  [(step.codeStart,
                     .code { cb0 with entrances := cb0.entrances ++ [step.entrance] }),
                   (addrAfter, .unknown)],
                analysedChunks := btreeInsert st.analysedChunks addrAfter
                  (step.codeStart, st.chunks.length) },
              .error (.invalidAddrInCodeBlock step.codeStart last))) ∧
    (∀ (wst : RomAssemblyWalkerState) (fuel : Nat) (step : StepBasicBlock)
       (rest : List RomAssemblyWalkerStep) (st2 : RomAssemblyWalkerState)
       (er : DisassemblyError),
      wst.remainingSteps = .basicBlock step :: rest →
      analyseBasicBlock { wst with remainingSteps := rest } step = some (st2, .error er) →
      fullAnalysis (fuel + 1) wst = some (st2, .error er)) := by
  constructor
  · intro st step cb0 addrAfter proc last t p hfind hdec hlast hcpc hjt hsc htargets hconv hge
    rw [analyseBasicBlock, hfind]
    rw [analyseBasicBlockBody, hdec]
    simp only
    rw [hlast]
    simp only [hcpc, if_true, hjt, Bool.false_eq_true, if_false, hsc, htargets]
    rw [finishTargets]
    simp only [processTargets, hconv]
    rw [if_pos hge]
    simp only [Option.bind_eq_bind, Option.bind_some, bind, Option.bind]
    congr 2
    simp
  · intro wst fuel step rest st2 er hrem hana
    rw [fullAnalysis, hrem]
    simp only [hana]

def c1Instr : Instruction :=
  { instrBranch 0 1 [0x8005] with mFlag := true, xFlag := true }

def c1Block0 : CodeBlock := ⟨[c1Instr], [], [], Processor.new, ⟨0x30⟩⟩

def c1Decode : Nat → Processor → Option Instruction :=
  fun o _ => if o = 0 then some (instrBranch 0 1 [0x8005]) else none

def c1Step : StepBasicBlock := ⟨0, Processor.new, 0x8000⟩

def c1Step2 : StepBasicBlock := ⟨0, Processor.new, 0x8001⟩

/-- A one-byte image whose single instruction jumps past the image end. -/
def c1State : RomAssemblyWalkerState :=
  ⟨[0], c1Decode, [], [], [], [], [], [], [], []⟩

/-- The same walker about to process the bad block with one further queued
entry behind it. -/
def c1QueueState : RomAssemblyWalkerState :=
  { c1State with remainingSteps := [.basicBlock c1Step, .basicBlock c1Step2] }

/-- C1 witness: the amended theorem applied to the concrete one-byte image. -/
theorem invalid_addr_commits_then_aborts_witness :
    analyseBasicBlock c1State c1Step =
      some ({ c1State with
              chunks := c1State.chunks ++
                [(c1Step.codeStart,
                   .code { c1Block0 with entrances := c1Block0.entrances ++ [c1Step.entrance] }),
                 (1, .unknown)],
              analysedChunks := btreeInsert c1State.analysedChunks 1
                (c1Step.codeStart, c1State.chunks.length) },
            .error (.invalidAddrInCodeBlock c1Step.codeStart c1Instr)) :=
  invalid_addr_commits_then_aborts.1 c1State c1Step c1Block0 1 ⟨0x30⟩ c1Instr 0x8005 5
    (by decide) (by rfl) (by rfl) (by decide) (by decide) (by decide) (by rfl) (by decide)
    (by decide)

/-- C1 counterexample: with a second worklist entry queued behind the bad
block, `full_analysis` returns the error with that entry still unprocessed
and no EndOfRom sentinel appended — the remaining worklist does NOT drain. -/
theorem invalid_addr_fatal_counterexample :
    ∃ stE, fullAnalysis 3 c1QueueState =
        some (stE, .error (.invalidAddrInCodeBlock 0 c1Instr)) ∧
      stE.remainingSteps = [.basicBlock c1Step2] ∧
      ∀ e ∈ stE.chunks, e.2 ≠ BinaryBlock.endOfRom := by
  refine ⟨_, rfl, rfl, ?_⟩
  decide

/-! ## Jump-table resolution (C8) -/

theorem enqueueBasicBlock_chunks (st : RomAssemblyWalkerState) (s : StepBasicBlock) :
    (enqueueBasicBlock st s).1.chunks = st.chunks := by
  rw [enqueueBasicBlock]
  split <;> rfl

theorem enqueueBasicBlock_rom (st : RomAssemblyWalkerState) (s : StepBasicBlock) :
    (enqueueBasicBlock st s).1.rom = st.rom := by
  rw [enqueueBasicBlock]
  split <;> rfl

theorem enqueueSubroutine_chunks (st : RomAssemblyWalkerState) (s : StepSubroutine) :
    (enqueueSubroutine st s).1.chunks = st.chunks := by
  rw [enqueueSubroutine]
  split <;> rfl

/-- On a successor list whose members all convert to in-range linear
addresses, the successor loop of `analyse_basic_block` records every
successor as an exit and never takes the error return. -/
theorem processTargets_all_ok (codeStart addrAfter : Nat) (last : Instruction)
    (processor : Processor) (entS : Nat)
    (hent : addrSnesTryFromLorom codeStart = .ok entS) :
    ∀ (ts : List Nat) (st : RomAssemblyWalkerState) (cb : CodeBlock) (nc : Bool),
      (∀ a ∈ ts, ∃ pa, addrPcTryFromLorom a = .ok pa ∧ pa < st.rom.length) →
      ∃ st2 nc2 exits2,
        processTargets codeStart addrAfter last processor ts st cb nc =
          some (.inr (st2, { cb with exits := exits2 }, nc2)) ∧
        exits2 = cb.exits ++ ts ∧
        st2.chunks = st.chunks ∧ st2.rom = st.rom
  | [], st, cb, nc, _ => by
    exact ⟨st, nc, cb.exits, rfl, by simp, rfl, rfl⟩
  | t :: ts, st, cb, nc, hok => by
    obtain ⟨pa, hpa, hlt⟩ := hok t (List.mem_cons_self _ _)
    have hrec := processTargets_all_ok codeStart addrAfter last processor entS hent ts
      (enqueueBasicBlock st ⟨pa, processor, entS⟩).1
      { cb with exits := cb.exits ++ [t] }
      (if pa = addrAfter then true else nc)
      (by
        intro a ha
        obtain ⟨qa, hqa, hqlt⟩ := hok a (List.mem_cons_of_mem _ ha)
        rw [enqueueBasicBlock_rom]
        exact ⟨qa, hqa, hqlt⟩)
    obtain ⟨st2, nc2, exits2, heq, hex, hch, hrom⟩ := hrec
    refine ⟨st2, nc2, exits2, ?_, ?_, ?_, ?_⟩
    · rw [processTargets]
      simp only [hpa, hent]
      rw [if_neg (by omega)]
      exact heq
    · rw [hex]
      simp
    · rw [hch, enqueueBasicBlock_chunks]
    · rw [hrom, enqueueBasicBlock_rom]

/-- The trailing subroutine-enqueue loop succeeds and does not touch the
chunk store when the entrance offset converts. -/
theorem enqueueSubsLoop_ok (entOff entV : Nat)
    (hoff : addrSnesTryFromLorom entOff = .ok entV) :
    ∀ (ts : List Nat) (st : RomAssemblyWalkerState),
      ∃ st3, enqueueSubsLoop entOff ts st = some st3 ∧
        st3.chunks = st.chunks ∧ st3.rom = st.rom
  | [], st => ⟨st, rfl, rfl, rfl⟩
  | t :: ts, st => by
    rcases hconv : addrPcTryFromLorom t with e | pa
    · obtain ⟨st3, h1, h2, h3⟩ := enqueueSubsLoop_ok entOff entV hoff ts st
      exact ⟨st3, by rw [enqueueSubsLoop, hconv]; exact h1, h2, h3⟩
    · obtain ⟨st3, h1, h2, h3⟩ :=
        enqueueSubsLoop_ok entOff entV hoff ts (enqueueSubroutine st (.mk pa entV none)).1
      refine ⟨st3, ?_, ?_, ?_⟩
      · rw [enqueueSubsLoop, hconv, hoff]
        exact h1
      · rw [h2, enqueueSubroutine_chunks]
      · rw [h3]
        have : (enqueueSubroutine st (.mk pa entV none)).1.rom = st.rom := by
          rw [enqueueSubroutine]
          split <;> rfl
        rw [this]

theorem commitBlock_chunks (st : RomAssemblyWalkerState) (cS aA : Nat) (cb : CodeBlock)
    (nc : Bool) :
    (commitBlock st cS aA cb nc).chunks =
      (st.chunks ++ [(cS, BinaryBlock.code cb)]) ++
        (if nc then [] else [(aA, BinaryBlock.unknown)]) := by
  cases nc <;> simp [commitBlock]

/-- Characterization of the shared successor-plus-commit tail of
`analyse_basic_block` when every successor is an in-range linear address:
the block is committed with the successors appended to its exits, subroutine
candidates are enqueued, and the chunk store gains only the committed
entries. -/
theorem finishTargets_ok (codeStart addrAfter : Nat) (last : Instruction)
    (processor : Processor) (st : RomAssemblyWalkerState) (cb : CodeBlock)
    (ts : List Nat) (entS offV : Nat)
    (hent : addrSnesTryFromLorom codeStart = .ok entS)
    (hoff : addrSnesTryFromLorom last.offset = .ok offV)
    (hok : ∀ a ∈ ts, ∃ pa, addrPcTryFromLorom a = .ok pa ∧ pa < st.rom.length) :
    ∃ st3 exits2 nc2,
      finishTargets codeStart addrAfter last processor true st cb ts =
        some (commitBlock st3 codeStart addrAfter { cb with exits := exits2 } nc2, .ok ()) ∧
      exits2 = cb.exits ++ ts ∧ st3.chunks = st.chunks := by
  obtain ⟨stA, ncA, exitsA, hpt, hexA, hchA, hromA⟩ :=
    processTargets_all_ok codeStart addrAfter last processor entS hent ts st cb false hok
  obtain ⟨stB, hB, hBch, hBrom⟩ := enqueueSubsLoop_ok last.offset offV hoff ts stA
  refine ⟨stB, exitsA, ncA, ?_, hexA, hBch.trans hchA⟩
  rw [finishTargets, hpt]
  simp only [Option.bind_eq_bind, Option.bind_some, bind, Option.bind, if_true]
  rw [hB]

/-- C8: when a basic block ends in a jump-table dispatch whose table address
is registered, the committed block's successors are exactly the pointers
decoded from the registered byte range, excluding zero-absolute entries and
entries in the exclusion list, and the table's byte range is pushed as a
Data chunk tagged JumpTable or JumpTableLong by pointer width; when no
registry entry matches the address after the block, the committed block's
successor set stays empty and the walk does not fail. -/
theorem jump_table_dispatch_resolution
    (st : RomAssemblyWalkerState) (step : StepBasicBlock)
    (cb0 : CodeBlock) (addrAfter : Nat) (proc : Processor)
    (last : Instruction) (jta entS offV : Nat)
    (hfind : findAnalysedChunkAt st step.codeStart = .missing)
    (hdec : codeBlockFromBytes st.decode step.codeStart st.rom.length step.processor
      = (cb0, addrAfter, proc))
    (hlast : cb0.instructions.getLast? = some last)
    (hcpc : last.canChangePc = true)
    (hjt : last.usesJumpTable = true)
    (hjta : addrSnesTryFromLorom addrAfter = .ok jta)
    (hent : addrSnesTryFromLorom step.codeStart = .ok entS)
    (hoff : addrSnesTryFromLorom last.offset = .ok offV) :
    (∀ (jtv : JumpTableView) (addresses : List Nat),
      st.jumpTables.find? (fun t => t.first == jta) = some jtv →
      getJumpTableFromRom st.rom jtv = some addresses →
      (∀ a ∈ (addresses.filter (fun a => addrAbsolute a != 0)).filter
          (fun a => !(st.nonCodeJumpAddresses.contains a)),
        ∃ pa, addrPcTryFromLorom a = .ok pa ∧ pa < st.rom.length) →
      ∃ st2 cbf, analyseBasicBlock st step = some (st2, .ok ()) ∧
        (addrAfter, BinaryBlock.data ⟨⟨jtv.first, jtv.length⟩,
          if jtv.longPtrs then .jumpTableLong else .jumpTable⟩) ∈ st2.chunks ∧
        (step.codeStart, BinaryBlock.code cbf) ∈ st2.chunks ∧
        cbf.exits = (addresses.filter (fun a => addrAbsolute a != 0)).filter
          (fun a => !(st.nonCodeJumpAddresses.contains a))) ∧
    (st.jumpTables.find? (fun t => t.first == jta) = none →
      ∃ st2, analyseBasicBlock st step = some (st2, .ok ()) ∧
        st2.chunks = st.chunks ++
          [(step.codeStart, BinaryBlock.code
              { cb0 with entrances := cb0.entrances ++ [step.entrance] }),
            (addrAfter, BinaryBlock.unknown)]) := by
  have hex0 : cb0.exits = [] := by
    have h := congrArg (fun x => x.1.exits) hdec
    simp [codeBlockFromBytes] at h
    exact h
  constructor
  · intro jtv addresses hreg hget hok
    have hstep : analyseBasicBlock st step =
        finishTargets step.codeStart addrAfter last ⟨proc.pReg ||| 0x30⟩ true
          { st with chunks := st.chunks ++
              [(addrAfter, BinaryBlock.data ⟨⟨jtv.first, jtv.length⟩,
                if jtv.longPtrs then .jumpTableLong else .jumpTable⟩)] }
          { cb0 with entrances := cb0.entrances ++ [step.entrance] }
          ((addresses.filter (fun a => addrAbsolute a != 0)).filter
            (fun a => !(st.nonCodeJumpAddresses.contains a))) := by
      rw [analyseBasicBlock, hfind]
      rw [analyseBasicBlockBody, hdec]
      simp only
      rw [hlast]
      simp only [hcpc, if_true, hjt, hjta, hreg, hget]
    obtain ⟨st3, exits2, nc2, hft, hex2, hch3⟩ :=
      finishTargets_ok step.codeStart addrAfter last ⟨proc.pReg ||| 0x30⟩
        { st with chunks := st.chunks ++
            [(addrAfter, BinaryBlock.data ⟨⟨jtv.first, jtv.length⟩,
              if jtv.longPtrs then .jumpTableLong else .jumpTable⟩)] }
        { cb0 with entrances := cb0.entrances ++ [step.entrance] }
        ((addresses.filter (fun a => addrAbsolute a != 0)).filter
          (fun a => !(st.nonCodeJumpAddresses.contains a)))
        entS offV hent hoff hok
    refine ⟨_, { cb0 with entrances := cb0.entrances ++ [step.entrance], exits := exits2 },
      hstep.trans hft, ?_, ?_, ?_⟩
    · rw [commitBlock_chunks, hch3]
      simp [List.mem_append]
    · rw [commitBlock_chunks]
      simp [List.mem_append]
    · rw [hex2]
      simp [hex0]
  · intro hmiss
    have hstep : analyseBasicBlock st step =
        finishTargets step.codeStart addrAfter last ⟨proc.pReg ||| 0x30⟩ true st
          { cb0 with entrances := cb0.entrances ++ [step.entrance] } [] := by
      rw [analyseBasicBlock, hfind]
      rw [analyseBasicBlockBody, hdec]
      simp only
      rw [hlast]
      simp only [hcpc, if_true, hjt, hjta, hmiss]
    refine ⟨commitBlock st step.codeStart addrAfter
      { cb0 with entrances := cb0.entrances ++ [step.entrance] } false, ?_, ?_⟩
    · rw [hstep]
      rfl
    · rw [commitBlock_chunks]
      simp

def c8Instr : Instruction :=
  { instrJumpTableDispatch 0 1 with mFlag := true, xFlag := true }

def c8Block0 : CodeBlock := ⟨[c8Instr], [], [], Processor.new, ⟨0x30⟩⟩

def c8Decode : Nat → Processor → Option Instruction :=
  fun o _ => if o = 0 then some (instrJumpTableDispatch 0 1) else none

/-- A six-byte image whose single instruction dispatches through the
registered two-byte jump table at logical `$8001` holding the one pointer
`$8005`. -/
def c8State : RomAssemblyWalkerState :=
  ⟨[0, 0x05, 0x80, 0, 0, 0], c8Decode, [⟨0x8001, 2, false⟩], [], [], [], [], [], [], []⟩

def c8Step : StepBasicBlock := ⟨0, Processor.new, 0x8000⟩

/-- C8 witness: on the concrete image the dispatch block is committed with
the decoded table pointer as its only successor and the table range is
pushed as a JumpTable data chunk. -/
theorem jump_table_dispatch_resolution_witness :
    ∃ st2 cbf, analyseBasicBlock c8State c8Step = some (st2, .ok ()) ∧
      (1, BinaryBlock.data ⟨⟨0x8001, 2⟩, .jumpTable⟩) ∈ st2.chunks ∧
      (0, BinaryBlock.code cbf) ∈ st2.chunks ∧
      cbf.exits = [0x8005] := by
  have h := (jump_table_dispatch_resolution c8State c8Step c8Block0 1 ⟨0x30⟩ c8Instr
      0x8001 0x8000 0x8000 (by decide) (by rfl) (by rfl) (by decide) (by decide)
      (by decide) (by decide) (by decide)).1
      ⟨0x8001, 2, false⟩ [0x8005] (by decide) (by rfl)
      (by
        intro a ha
        have hmem : a = 0x8005 := by
          rcases List.mem_filter.mp ha with ⟨h1, -⟩
          rcases List.mem_filter.mp h1 with ⟨h2, -⟩
          simpa using h2
        subst hmem
        exact ⟨5, by decide, by decide⟩)
  obtain ⟨st2, cbf, h1, h2, h3, h4⟩ := h
  exact ⟨st2, cbf, h1, h2, h3, h4.trans (by decide)⟩

/-! ## Recursive-call handling in subroutine analysis (C7) -/

/-- `sub_exists_in_call_hierarchy` decides membership of an address in the
step's caller chain. -/
theorem subExists_iff_mem_chain : ∀ (s : StepSubroutine) (a : Nat),
    s.subExistsInCallHierarchy a = true ↔ a ∈ s.chain
  | .mk c e none, a => by
    simp [StepSubroutine.subExistsInCallHierarchy, StepSubroutine.chain]
    by_cases h : c = a <;> simp [h]
    · exact fun h2 => h h2.symm
  | .mk c e (some s), a => by
    have ih := subExists_iff_mem_chain s a
    simp only [StepSubroutine.subExistsInCallHierarchy, StepSubroutine.chain, List.mem_cons]
    by_cases h : c = a
    · subst h
      simp
    · simp only [h, if_false, ih]
      constructor
      · exact fun h2 => Or.inr h2
      · intro h2
        rcases h2 with h2 | h2
        · exact absurd h2.symm h
        · exact h2

theorem enqueueBasicBlock_subReturns (st : RomAssemblyWalkerState) (s : StepBasicBlock) :
    (enqueueBasicBlock st s).1.subroutineReturns = st.subroutineReturns := by
  rw [enqueueBasicBlock]
  split <;> rfl

/-- `enqueue_basic_block` never adds a Subroutine step to the worklist. -/
theorem enqueueBasicBlock_no_subroutine (st : RomAssemblyWalkerState) (s : StepBasicBlock) :
    ∀ s2, RomAssemblyWalkerStep.subroutine s2 ∈ (enqueueBasicBlock st s).1.remainingSteps →
      RomAssemblyWalkerStep.subroutine s2 ∈ st.remainingSteps := by
  intro s2 h
  rw [enqueueBasicBlock] at h
  split at h
  · exact h
  · simp only at h
    rcases List.mem_cons.mp h with h1 | h2
    · exact absurd h1 (by simp)
    · exact h2

/-- `enqueue_basic_block` pushes the step when its start is fresh. -/
theorem enqueueBasicBlock_push (st : RomAssemblyWalkerState) (s : StepBasicBlock)
    (h : s.codeStart ∉ st.analysedCodeStarts) :
    (enqueueBasicBlock st s).1.remainingSteps =
      RomAssemblyWalkerStep.basicBlock s :: st.remainingSteps := by
  rw [enqueueBasicBlock, if_neg h]

/-- C7: when the subroutine-analysis loop reaches a block ending in a call
whose callee is already on the current caller chain, it registers the
fall-through address as a pending return for the callee, enqueues a
BasicBlock step at the fall-through address carrying the enclosing
subroutine's in-progress flag state, does not add any Subroutine step to the
worklist, and continues the loop with the fall-through block scheduled. -/
theorem recursive_call_fall_through
    (step : StepSubroutine) (fuel : Nat) (st : RomAssemblyWalkerState)
    (sub : SubroutineAnalysisState) (curr rs re idx : Nat) (block : CodeBlock)
    (last : Instruction) (e0 callee addrAfter : Nat) (es : List Nat)
    (hrem : sub.remainingBlocks.getLast? = some curr)
    (hfind : findAnalysedChunkAt st curr = .found rs re idx)
    (hchunk : (st.chunks.get? idx).bind (fun c => c.2.codeBlock) = some block)
    (hlast : block.instructions.getLast? = some last)
    (hjt : last.usesJumpTable = false)
    (hcall : last.isSubroutineCall = true)
    (hexits : block.exits = e0 :: es)
    (hconv : addrPcTryFromLorom e0 = .ok callee)
    (honchain : callee ∈ step.chain)
    (haa : addrAfter = last.offset + last.size)
    (hleap : last.isSinglePathLeap = false)
    (hfresh : sub.analysedBlocks.contains addrAfter = false) :
    ∃ stB,
      analyseSubLoop step (fuel + 1) st sub =
        analyseSubLoop step fuel stB
          { sub with
            codeBlocks := sub.codeBlocks ++ [idx],
            analysedBlocks := addrAfter :: sub.analysedBlocks,
            remainingBlocks := sub.remainingBlocks.dropLast ++ [addrAfter] } ∧
      stB.subroutineReturns = subReturnsPush st.subroutineReturns callee addrAfter ∧
      (∀ s2, RomAssemblyWalkerStep.subroutine s2 ∈ stB.remainingSteps →
        RomAssemblyWalkerStep.subroutine s2 ∈ st.remainingSteps) ∧
      (addrAfter ∉ st.analysedCodeStarts →
        stB.remainingSteps =
          RomAssemblyWalkerStep.basicBlock ⟨addrAfter, sub.finalProcessorState, step.entrance⟩
            :: st.remainingSteps) := by
  have hhier : step.subExistsInCallHierarchy callee = true :=
    (subExists_iff_mem_chain step callee).mpr honchain
  subst haa
  refine ⟨(enqueueBasicBlock
      { st with subroutineReturns :=
          subReturnsPush st.subroutineReturns callee (last.offset + last.size) }
      ⟨last.offset + last.size, sub.finalProcessorState, step.entrance⟩).1, ?_, ?_, ?_, ?_⟩
  · rw [analyseSubLoop]
    simp only [hrem, hfind, hchunk, hlast]
    simp only [hjt, Bool.false_eq_true, if_false]
    simp only [subProcessExits, hexits, List.isEmpty_cons, Bool.false_eq_true, if_false,
      hcall, if_true, List.head?_cons, hconv, hhier]
    simp only [hleap, hfresh, Bool.not_false, Bool.and_self, if_true]
  · rw [enqueueBasicBlock_subReturns]
  · intro s2 h
    exact enqueueBasicBlock_no_subroutine
      { st with subroutineReturns :=
          subReturnsPush st.subroutineReturns callee (last.offset + last.size) }
      ⟨last.offset + last.size, sub.finalProcessorState, step.entrance⟩ s2 h
  · intro hna
    exact enqueueBasicBlock_push
      { st with subroutineReturns :=
          subReturnsPush st.subroutineReturns callee (last.offset + last.size) }
      ⟨last.offset + last.size, sub.finalProcessorState, step.entrance⟩ hna

def c7Instr : Instruction := instrCall 0 1 [0x8000]

/-- A one-instruction block at offset 0 that calls logical `$8000`, i.e.
itself. -/
def c7Block : CodeBlock := ⟨[c7Instr], [0x8000], [0x8000], Processor.new, Processor.new⟩

def c7Step : StepSubroutine := .mk 0 0x8000 none

def c7Sub : SubroutineAnalysisState := ⟨[], [], [0], Processor.new⟩

/-- A walker state holding the self-calling block as its analysed chunk. -/
def c7State : RomAssemblyWalkerState :=
  ⟨[0], fun _ _ => none, [], [], [(0, .code c7Block)], [(1, 0, 0)], [], [], [], []⟩

/-- C7 witness: the recursion theorem applied to a concrete self-recursive
subroutine. -/
theorem recursive_call_fall_through_witness :
    ∃ stB,
      analyseSubLoop c7Step 2 c7State c7Sub =
        analyseSubLoop c7Step 1 stB
          { c7Sub with
            codeBlocks := c7Sub.codeBlocks ++ [0],
            analysedBlocks := 1 :: c7Sub.analysedBlocks,
            remainingBlocks := c7Sub.remainingBlocks.dropLast ++ [1] } ∧
      stB.subroutineReturns = subReturnsPush c7State.subroutineReturns 0 1 ∧
      (∀ s2, RomAssemblyWalkerStep.subroutine s2 ∈ stB.remainingSteps →
        RomAssemblyWalkerStep.subroutine s2 ∈ c7State.remainingSteps) ∧
      (1 ∉ c7State.analysedCodeStarts →
        stB.remainingSteps =
          RomAssemblyWalkerStep.basicBlock ⟨1, c7Sub.finalProcessorState, c7Step.entrance⟩
            :: c7State.remainingSteps) :=
  recursive_call_fall_through c7Step 1 c7State c7Sub 0 0 1 0 c7Block c7Instr 0x8000 0 1 []
    (by rfl) (by decide) (by rfl) (by rfl) (by decide) (by decide) (by rfl) (by decide)
    (by decide) (by decide) (by decide) (by decide)

/-! ## Subroutine completion (C6) -/

theorem enqueueBasicBlock_steps_mono (st : RomAssemblyWalkerState) (s : StepBasicBlock) :
    ∀ x ∈ st.remainingSteps, x ∈ (enqueueBasicBlock st s).1.remainingSteps := by
  intro x h
  rw [enqueueBasicBlock]
  split
  · exact h
  · exact List.mem_cons_of_mem _ h

theorem enqueueBasicBlock_codeStarts_push (st : RomAssemblyWalkerState) (s : StepBasicBlock)
    (h : s.codeStart ∉ st.analysedCodeStarts) :
    (enqueueBasicBlock st s).1.analysedCodeStarts = s.codeStart :: st.analysedCodeStarts := by
  rw [enqueueBasicBlock, if_neg h]

/-- Worklist membership is preserved by the return-continuation fold. -/
theorem foldReturns_mono (final : Processor) (ent : Nat) :
    ∀ (rs : List Nat) (s : RomAssemblyWalkerState) (x : RomAssemblyWalkerStep),
      x ∈ s.remainingSteps →
      x ∈ (rs.foldl (fun s r => (enqueueBasicBlock s ⟨r, final, ent⟩).1) s).remainingSteps
  | [], _, _, h => h
  | r :: rs, s, x, h =>
    foldReturns_mono final ent rs _ x (enqueueBasicBlock_steps_mono s ⟨r, final, ent⟩ x h)

/-- Every distinct, previously unanalysed pending return address ends up as a
queued BasicBlock step carrying the given flag state after the
return-continuation fold. -/
theorem foldReturns_mem (final : Processor) (ent : Nat) :
    ∀ (rs : List Nat) (s : RomAssemblyWalkerState),
      rs.Nodup → (∀ r ∈ rs, r ∉ s.analysedCodeStarts) →
      ∀ r ∈ rs,
        RomAssemblyWalkerStep.basicBlock ⟨r, final, ent⟩ ∈
          (rs.foldl (fun s r => (enqueueBasicBlock s ⟨r, final, ent⟩).1) s).remainingSteps
  | [], _, _, _, r, hr => absurd hr (List.not_mem_nil r)
  | r0 :: rs, s, hnd, hfresh, r, hr => by
    have hf0 : r0 ∉ s.analysedCodeStarts := hfresh r0 (List.mem_cons_self _ _)
    rw [List.foldl_cons]
    rcases List.mem_cons.mp hr with rfl | hr'
    · apply foldReturns_mono
      rw [enqueueBasicBlock_push s ⟨r, final, ent⟩ hf0]
      exact List.mem_cons_self _ _
    · apply foldReturns_mem final ent rs _ (List.nodup_cons.mp hnd).2 ?_ r hr'
      intro r' hr''
      rw [enqueueBasicBlock_codeStarts_push s ⟨r0, final, ent⟩ hf0]
      intro hmem
      rcases List.mem_cons.mp hmem with h1 | h2
      · have h1' : r' = r0 := by simpa using h1
        exact (List.nodup_cons.mp hnd).1 (h1' ▸ hr'')
      · exact hfresh r' (List.mem_cons_of_mem _ hr'') h2

/-- C6 (amended): the subroutine-analysis loop completes exactly when its
remaining-blocks worklist is empty; on completion the final flag state is
taken from the FIRST constituent block (in `code_blocks` order) whose last
instruction is a return or a jump-table dispatch — the source's `find` does
not prefer returns over dispatches — and every pending return-address
continuation registered for the subroutine is enqueued as a BasicBlock step
carrying that final flag state; if no constituent block ends in a return or
jump-table dispatch, `analyse_subroutine` returns SubroutineWithoutReturn. -/
theorem subroutine_completion :
    (∀ (step : StepSubroutine) (fuel : Nat) (st : RomAssemblyWalkerState)
       (sub : SubroutineAnalysisState),
      sub.remainingBlocks = [] →
      analyseSubLoop step (fuel + 1) st sub = some (.inr (st, sub))) ∧
    (∀ (step : StepSubroutine) (fuel : Nat) (st : RomAssemblyWalkerState)
       (sub : SubroutineAnalysisState) (idx : Nat) (blk : CodeBlock) (returns : List Nat),
      assocFind st.analysedSubroutines step.codeStart = some sub →
      sub.remainingBlocks = [] →
      step.caller = none →
      findReturningBlock st.chunks sub.codeBlocks = some (some idx) →
      (st.chunks.get? idx).bind (fun c => c.2.codeBlock) = some blk →
      assocFind st.subroutineReturns step.codeStart = some returns →
      analyseSubroutine (fuel + 1) st step =
        some (returns.foldl
            (fun s r => (enqueueBasicBlock s ⟨r, blk.finalProcessorState, step.entrance⟩).1)
            { st with analysedSubroutines := (assocSet st.analysedSubroutines step.codeStart
                { sub with finalProcessorState := blk.finalProcessorState }) },
          .ok ()) ∧
      (returns.Nodup →
        (∀ r ∈ returns, r ∉ st.analysedCodeStarts) →
        ∀ r ∈ returns,
          RomAssemblyWalkerStep.basicBlock ⟨r, blk.finalProcessorState, step.entrance⟩ ∈
            (returns.foldl
              (fun s r => (enqueueBasicBlock s ⟨r, blk.finalProcessorState, step.entrance⟩).1)
              { st with analysedSubroutines := (assocSet st.analysedSubroutines step.codeStart
                  { sub with finalProcessorState := blk.finalProcessorState }) }).remainingSteps)) ∧
    (∀ (step : StepSubroutine) (fuel : Nat) (st : RomAssemblyWalkerState)
       (sub : SubroutineAnalysisState) (snes : Nat),
      assocFind st.analysedSubroutines step.codeStart = some sub →
      sub.remainingBlocks = [] →
      findReturningBlock st.chunks sub.codeBlocks = some none →
      addrSnesTryFromLorom step.codeStart = .ok snes →
      analyseSubroutine (fuel + 1) st step =
        some ({ st with
                analysedSubroutines := assocSet st.analysedSubroutines step.codeStart sub },
          .error (.subroutineWithoutReturn snes))) := by
  have hloop : ∀ (step : StepSubroutine) (fuel : Nat) (st : RomAssemblyWalkerState)
      (sub : SubroutineAnalysisState), sub.remainingBlocks = [] →
      analyseSubLoop step (fuel + 1) st sub = some (.inr (st, sub)) := by
    intro step fuel st sub h
    rw [analyseSubLoop]
    simp only [h, List.getLast?_nil]
  refine ⟨hloop, ?_, ?_⟩
  · intro step fuel st sub idx blk returns hrec hempty hcaller hfrb hblk hrets
    constructor
    · rw [analyseSubroutine]
      simp only [hrec]
      rw [hloop step fuel st sub hempty]
      simp only [hfrb, hblk, hcaller, hrets]
    · intro hnd hfresh r hr
      exact foldReturns_mem blk.finalProcessorState step.entrance returns
        { st with analysedSubroutines := (assocSet st.analysedSubroutines step.codeStart
            { sub with finalProcessorState := blk.finalProcessorState }) } hnd hfresh r hr
  · intro step fuel st sub snes hrec hempty hfrb hsnes
    rw [analyseSubroutine]
    simp only [hrec]
    rw [hloop step fuel st sub hempty]
    simp only [hfrb, hsnes]

/-- A constituent block ending in a jump-table dispatch, final flag state
`0xAA`. -/
def c6Jtb : CodeBlock :=
  ⟨[instrJumpTableDispatch 0 2], [], [0x8000], Processor.new, ⟨0xAA⟩⟩

/-- A constituent block ending in a subroutine return, final flag state
`0xBB`. -/
def c6Ret : CodeBlock :=
  ⟨[instrReturn 2 1], [], [0x8000], Processor.new, ⟨0xBB⟩⟩

def c6Step : StepSubroutine := .mk 0 0x8000 none

/-- A drained subroutine record whose constituent blocks are, in discovery
order, the dispatch block then the return block. -/
def c6Sub : SubroutineAnalysisState := ⟨[0, 1], [], [], Processor.new⟩

def c6State : RomAssemblyWalkerState :=
  ⟨[0, 0, 0], fun _ _ => none, [], [], [(0, .code c6Jtb), (2, .code c6Ret)], [],
   [], [], [], [(0, c6Sub)]⟩

/-- C6 counterexample: although a constituent block ending in a return
exists, the completed subroutine's final flag state is taken from the
jump-table dispatch block that comes first in `code_blocks` order — the
source's scan does not prefer returns, refuting the claim's "or, lacking
one" ordering. -/
theorem subroutine_first_match_counterexample :
    ∃ stF, analyseSubroutine 1 c6State c6Step = some (stF, .ok ()) ∧
      assocFind stF.analysedSubroutines 0 =
        some { c6Sub with finalProcessorState := c6Jtb.finalProcessorState } ∧
      c6Jtb.finalProcessorState ≠ c6Ret.finalProcessorState ∧
      1 ∈ c6Sub.codeBlocks ∧
      (c6State.chunks.get? 1).bind (fun c => c.2.codeBlock) = some c6Ret ∧
      (∃ lastR, c6Ret.instructions.getLast? = some lastR ∧
        lastR.isSubroutineReturn = true) := by
  refine ⟨_, rfl, by decide, by decide, by decide, by rfl, ?_⟩
  exact ⟨instrReturn 2 1, by decide, by decide⟩

/-- The same store with a pending return continuation registered for the
subroutine at 0. -/
def c6WState : RomAssemblyWalkerState :=
  { c6State with subroutineReturns := [(0, [3])] }

/-- C6 witness: the amended theorem applied to the drained record above;
the continuation at 3 is enqueued carrying the dispatch block's flag
state. -/
theorem subroutine_completion_witness :
    analyseSubroutine 1 c6WState c6Step =
      some ([3].foldl
          (fun s r => (enqueueBasicBlock s ⟨r, c6Jtb.finalProcessorState, c6Step.entrance⟩).1)
          { c6WState with analysedSubroutines := (assocSet c6WState.analysedSubroutines
              c6Step.codeStart { c6Sub with finalProcessorState := c6Jtb.finalProcessorState }) },
        .ok ()) ∧
    RomAssemblyWalkerStep.basicBlock ⟨3, c6Jtb.finalProcessorState, c6Step.entrance⟩ ∈
      ([3].foldl
        (fun s r => (enqueueBasicBlock s ⟨r, c6Jtb.finalProcessorState, c6Step.entrance⟩).1)
        { c6WState with analysedSubroutines := (assocSet c6WState.analysedSubroutines
            c6Step.codeStart
            { c6Sub with finalProcessorState := c6Jtb.finalProcessorState }) }).remainingSteps := by
  have h := subroutine_completion.2.1 c6Step 0 c6WState c6Sub 0 c6Jtb [3]
    (by decide) (by decide) (by rfl) (by decide) (by rfl) (by decide)
  exact ⟨h.1, h.2 (by decide) (by decide) 3 (by decide)⟩
